import Mathlib

/-!
Verification of the comment-extraction core of the Code-comment-visualization
plugin.  The TypeScript sources (`binarySearch.ts`, `SymbolResolver.ts`,
`TagParser.ts`, `JavaDocParser.ts`) are shallowly embedded below: strings are
`List Char`, JavaScript regular expressions are replaced by equivalent
character-level matchers, the `Map` insertion-order semantics is modelled by
association lists, and the asynchronous resolver is modelled as an explicit
state-transition system.  The theorems at the end of the file settle the
specification's claims against these embeddings.
-/

set_option maxRecDepth 10000

/-- Strings are modelled as character lists so that every JavaScript string
operation can be embedded faithfully. -/
abbrev Str := List Char

/-- Conversion from Lean string literals to the character-list model. -/
def str (s : String) : Str := s.data

/-- JavaScript `\s` character class (ECMAScript WhiteSpace and
LineTerminator), by code point. -/
def isJsWs (c : Char) : Bool :=
  c.toNat = 32 || c.toNat = 9 || c.toNat = 10 || c.toNat = 13 ||
  c.toNat = 11 || c.toNat = 12 ||
  c.toNat = 0xa0 || c.toNat = 0x1680 || (0x2000 ≤ c.toNat && c.toNat ≤ 0x200a) ||
  c.toNat = 0x2028 || c.toNat = 0x2029 || c.toNat = 0x202f || c.toNat = 0x205f ||
  c.toNat = 0x3000 || c.toNat = 0xfeff

/-- JavaScript `\w` character class (`[A-Za-z0-9_]`), by code point. -/
def isWordChar (c : Char) : Bool :=
  (97 ≤ c.toNat && c.toNat ≤ 122) || (65 ≤ c.toNat && c.toNat ≤ 90) ||
  (48 ≤ c.toNat && c.toNat ≤ 57) || c.toNat = 95

/-- First character of a Java identifier in the parser's regexes:
`[A-Za-z_$]`, by code point. -/
def isIdentStart (c : Char) : Bool :=
  (97 ≤ c.toNat && c.toNat ≤ 122) || (65 ≤ c.toNat && c.toNat ≤ 90) ||
  c.toNat = 95 || c.toNat = 36

/-- Subsequent identifier characters in the parser's regexes: `[\w$]`. -/
def isIdentChar (c : Char) : Bool := isWordChar c || c = '$'

/-- JavaScript `String.prototype.trimStart`. -/
def trimStartC (s : Str) : Str := s.dropWhile isJsWs

/-- JavaScript `String.prototype.trimEnd`. -/
def trimEndC (s : Str) : Str := (s.reverse.dropWhile isJsWs).reverse

/-- JavaScript `String.prototype.trim`. -/
def trimC (s : Str) : Str := trimEndC (s.dropWhile isJsWs)

/-- `Array.prototype.join("\n")` on a list of lines. -/
def joinNl : List Str → Str
  | [] => []
  | [l] => l
  | l :: ls => l ++ '\n' :: joinNl ls

/-- `String.prototype.split("\n")`. -/
def splitNl : Str → List Str
  | [] => [[]]
  | c :: rest =>
    match splitNl rest with
    | [] => [[c]]
    | h :: t => if c = '\n' then [] :: h :: t else (c :: h) :: t

/-- `String.prototype.split(/\r?\n/)`: split on newlines, a carriage return
directly before the newline belongs to the separator. -/
def splitLines (s : Str) : List Str :=
  (splitNl s).map (fun l => if l.getLast? = some '\r' then l.dropLast else l)

/-- JavaScript `String.prototype.includes` (substring test). -/
def containsSub (pat : Str) : Str → Bool
  | [] => pat.isPrefixOf []
  | l@(_ :: t) => pat.isPrefixOf l || containsSub pat t

-- ======================================================================
-- types.ts: tag table records
-- ======================================================================

/-- `ParamTag` from `types.ts`. -/
structure ParamTag where
  name : Str
  type : Str
  description : Str
  deriving Repr, DecidableEq

/-- `ReturnTag` from `types.ts`. -/
structure ReturnTag where
  type : Str
  description : Str
  deriving Repr, DecidableEq

/-- `ThrowsTag` from `types.ts`. -/
structure ThrowsTag where
  type : Str
  description : Str
  deriving Repr, DecidableEq

/-- `TagTable` from `types.ts`.  The `example` tag field is called
`exampleTag` because `example` is a Lean keyword. -/
structure TagTable where
  params : List ParamTag
  returns : Option ReturnTag
  throws : List ThrowsTag
  since : Option Str
  author : Option Str
  deprecated : Option Str
  see : List Str
  doc : Option Str
  exampleTag : Option Str
  deriving Repr, DecidableEq

/-- `createEmptyTagTable` from `TagParser.ts`. -/
def createEmptyTagTable : TagTable :=
  { params := [], returns := none, throws := [], since := none,
    author := none, deprecated := none, see := [], doc := none,
    exampleTag := none }

/-- `EMPTY_TAG_TABLE` from `types.ts` (the shared zero value used for
declarations without a comment). -/
def EMPTY_TAG_TABLE : TagTable := createEmptyTagTable

-- ======================================================================
-- binarySearch.ts
-- ======================================================================

/-- `MethodDoc` from `types.ts` (the fields consumed by the parser and the
cursor locator). -/
structure MethodDoc where
  id : Str
  kind : Str
  name : Str
  signature : Str
  startLine : Nat
  endLine : Nat
  hasComment : Bool
  description : Str
  tags : TagTable
  belongsTo : Str
  accessModifier : Str
  deriving Repr, DecidableEq

/-- The upper-bound loop of `findRightmostStartLineAtOrBefore`: the half-open
interval `[left, right)` is narrowed until it is empty; the result is the
final value of `left`.  The loop is driven by explicit fuel (each iteration
strictly shrinks `right - left`, so any fuel at or above the initial interval
width makes the fuel bound unreachable). -/
def findRightmostGo (methods : List MethodDoc) (cursorLine : Nat) :
    Nat → Nat → Nat → Nat
  | 0, left, _ => left
  | fuel + 1, left, right =>
    if left < right then
      let mid := left + (right - left) / 2
      match methods[mid]? with
      | some m =>
        if m.startLine ≤ cursorLine then
          findRightmostGo methods cursorLine fuel (mid + 1) right
        else
          findRightmostGo methods cursorLine fuel left mid
      | none => findRightmostGo methods cursorLine fuel left mid
    else left

/-- `findRightmostStartLineAtOrBefore` from `binarySearch.ts`: index of the
last method whose `startLine` is at or before the cursor, `-1` if none. -/
def findRightmostStartLineAtOrBefore (methods : List MethodDoc)
    (cursorLine : Nat) : Int :=
  (findRightmostGo methods cursorLine methods.length 0 methods.length : Int) - 1

/-- `isLineInsideMethod` from `binarySearch.ts`. -/
def isLineInsideMethod (method : MethodDoc) (cursorLine : Nat) : Bool :=
  method.startLine ≤ cursorLine && cursorLine ≤ method.endLine

/-- `binarySearchMethod` from `binarySearch.ts`. -/
def binarySearchMethod (methods : List MethodDoc) (cursorLine : Nat) :
    Option MethodDoc :=
  if methods.length = 0 then none
  else
    match methods[0]?, methods[methods.length - 1]? with
    | some first, some last =>
      if cursorLine < first.startLine ∨ last.endLine < cursorLine then none
      else
        let candidateIndex := findRightmostStartLineAtOrBefore methods cursorLine
        if candidateIndex < 0 then none
        else
          match methods[candidateIndex.toNat]? with
          | some candidate =>
            if isLineInsideMethod candidate cursorLine then some candidate
            else none
          | none => none
    | _, _ => none

/-- A method document carrying only line information (all other fields are
the neutral defaults); used to state concrete instances compactly. -/
def mdAt (s e : Nat) : MethodDoc :=
  { id := [], kind := str "method", name := [], signature := [],
    startLine := s, endLine := e, hasComment := false, description := [],
    tags := createEmptyTagTable, belongsTo := [], accessModifier := str "default" }

-- ======================================================================
-- SymbolResolver.ts
-- ======================================================================

/-- A `vscode.Range` restricted to the line information the parser reads
(`start.line` and `end.line`). -/
structure Rng where
  startL : Nat
  endL : Nat
  deriving Repr, DecidableEq

/-- `vscode.DocumentSymbol`: name, numeric `vscode.SymbolKind`, detail,
selection range, full range and children.  The ranges are `Option`s because
symbols arrive from an external duck-typed provider; an absent range models
the malformed value whose member access raises the `TypeError` that the
parser's per-declaration `try/catch` recovers from. -/
inductive DocSym where
  | mk (name : Str) (kind : Nat) (detail : Str)
      (selectionRange : Option Rng) (range : Option Rng)
      (children : List DocSym)

/-- Symbol name. -/
def DocSym.name : DocSym → Str
  | .mk n _ _ _ _ _ => n

/-- Symbol kind (numeric `vscode.SymbolKind`). -/
def DocSym.kind : DocSym → Nat
  | .mk _ k _ _ _ _ => k

/-- Symbol detail text. -/
def DocSym.detail : DocSym → Str
  | .mk _ _ d _ _ _ => d

/-- Selection range (identifier position). -/
def DocSym.selectionRange : DocSym → Option Rng
  | .mk _ _ _ s _ _ => s

/-- Full declaration range. -/
def DocSym.range : DocSym → Option Rng
  | .mk _ _ _ _ r _ => r

/-- Nested child symbols. -/
def DocSym.children : DocSym → List DocSym
  | .mk _ _ _ _ _ c => c

/-- `CLASS_LIKE_KINDS` from `SymbolResolver.ts`: `SymbolKind.Class` (4),
`SymbolKind.Interface` (10), `SymbolKind.Enum` (9). -/
def CLASS_LIKE_KINDS : List Nat := [4, 10, 9]

/-- `METHOD_KINDS`: `Method` (5), `Constructor` (8), `Function` (11). -/
def METHOD_KINDS : List Nat := [5, 8, 11]

/-- `FIELD_KINDS`: `Field` (7), `Constant` (13). -/
def FIELD_KINDS : List Nat := [7, 13]

/-- `isClassLikeSymbol` from `SymbolResolver.ts`. -/
def isClassLikeSymbol (s : DocSym) : Bool := CLASS_LIKE_KINDS.contains s.kind

/-- `isMethodSymbol` from `SymbolResolver.ts`. -/
def isMethodSymbol (s : DocSym) : Bool := METHOD_KINDS.contains s.kind

/-- `isFieldSymbol` from `SymbolResolver.ts`. -/
def isFieldSymbol (s : DocSym) : Bool := FIELD_KINDS.contains s.kind

/-- `isEnumMemberSymbol` from `SymbolResolver.ts`: `EnumMember` (21). -/
def isEnumMemberSymbol (s : DocSym) : Bool := s.kind == 21

/-- `isConstructorSymbol` from `SymbolResolver.ts`: `Constructor` (8). -/
def isConstructorSymbol (s : DocSym) : Bool := s.kind == 8

/-- `CachedSymbols` from `SymbolResolver.ts`. -/
structure CachedSymbols where
  version : Nat
  symbols : List DocSym

/-- `MAX_CACHE_ENTRIES` from `SymbolResolver.ts`. -/
def MAX_CACHE_ENTRIES : Nat := 128

/-- A JavaScript `Map` with string keys, modelled as an association list in
insertion order (head = oldest entry). -/
abbrev JsMap (α : Type) := List (Str × α)

/-- `Map.prototype.get`. -/
def mapGet {α : Type} (m : JsMap α) (k : Str) : Option α :=
  match m with
  | [] => none
  | (k', v) :: t => if k' = k then some v else mapGet t k

/-- `Map.prototype.set`: replaces the value of an existing key in place
(keeping its insertion position), otherwise appends a new entry. -/
def mapSet {α : Type} (m : JsMap α) (k : Str) (v : α) : JsMap α :=
  match m with
  | [] => [(k, v)]
  | (k', v') :: t => if k' = k then (k', v) :: t else (k', v') :: mapSet t k v

/-- `Map.prototype.delete`.  Keys are unique in a `Map`, so removing every
matching entry coincides with deleting the one entry. -/
def mapDelete {α : Type} (m : JsMap α) (k : Str) : JsMap α :=
  m.filter (fun e => !(decide (e.1 = k)))

/-- `Map.prototype.has`. -/
def mapHas {α : Type} (m : JsMap α) (k : Str) : Bool := (mapGet m k).isSome

/-- `getCachedSymbols` from `SymbolResolver.ts`: on a hit for the same
version the entry is deleted and re-inserted, promoting it to the end of
the insertion order (most recently used).  Returns the hit (if any) and the
updated cache. -/
def getCachedSymbols (cache : JsMap CachedSymbols) (cacheKey : Str)
    (version : Nat) : Option (List DocSym) × JsMap CachedSymbols :=
  match mapGet cache cacheKey with
  | none => (none, cache)
  | some cached =>
    if cached.version ≠ version then (none, cache)
    else (some cached.symbols, mapSet (mapDelete cache cacheKey) cacheKey cached)

/-- `setCachedSymbols` from `SymbolResolver.ts`: when inserting under a new
key at capacity, the oldest entry (first key of the map) is deleted first. -/
def setCachedSymbols (cache : JsMap CachedSymbols) (cacheKey : Str)
    (version : Nat) (symbols : List DocSym) : JsMap CachedSymbols :=
  let cache' :=
    if !(mapHas cache cacheKey) && decide (MAX_CACHE_ENTRIES ≤ cache.length) then
      match cache with
      | [] => cache
      | (oldestKey, _) :: _ => mapDelete cache oldestKey
    else cache
  mapSet cache' cacheKey { version := version, symbols := symbols }

/-- The module-level mutable state of `SymbolResolver.ts`: the LRU symbol
cache and the in-flight request map (request key ↦ identity of the pending
promise). -/
structure ResolverState where
  symbolCache : JsMap CachedSymbols
  inFlight : JsMap Nat

/-- The request key `${cacheKey}#${version ?? "untracked"}`. -/
def requestKey (cacheKey : Str) (version : Option Nat) : Str :=
  cacheKey ++ '#' :: (match version with
    | some v => Nat.toDigits 10 v
    | none => str "untracked")

/-- Observable outcome of the synchronous prefix of one `resolveSymbols`
call: a cache hit, the pending promise of an earlier caller, or a freshly
launched external lookup.  Only `launched` issues an external call. -/
inductive ResolveOutcome where
  | cachedHit (symbols : List DocSym)
  | pendingHit (id : Nat)
  | launched (id : Nat)

/-- The synchronous prefix of `resolveSymbols` from `SymbolResolver.ts`
(everything up to the first suspension): `version` is the open-document
version observed at entry (`getOpenDocumentVersion`), `newId` identifies
the promise created in case the external lookup is actually issued. -/
def resolveSymbolsStep (st : ResolverState) (cacheKey : Str)
    (version : Option Nat) (newId : Nat) : ResolveOutcome × ResolverState :=
  let afterCache :=
    match version with
    | some v =>
      match getCachedSymbols st.symbolCache cacheKey v with
      | (some syms, cache') => some (syms, cache')
      | (none, _) => none
    | none => none
  match afterCache with
  | some (syms, cache') => (.cachedHit syms, { st with symbolCache := cache' })
  | none =>
    let rk := requestKey cacheKey version
    match mapGet st.inFlight rk with
    | some pendingId => (.pendingHit pendingId, st)
    | none => (.launched newId, { st with inFlight := mapSet st.inFlight rk newId })

/-- The settle continuation of the request promise in `resolveSymbols`: the
`then` step caches a successful result under the version observed before
the call (when that version was known), and the `finally` step clears the
in-flight marker in the success and the failure case alike. -/
def settleRequest (st : ResolverState) (cacheKey : Str) (version : Option Nat)
    (result : Except Unit (List DocSym)) : ResolverState :=
  let st' :=
    match result, version with
    | .ok symbols, some v =>
      { st with symbolCache := setCachedSymbols st.symbolCache cacheKey v symbols }
    | _, _ => st
  { st' with inFlight := mapDelete st'.inFlight (requestKey cacheKey version) }
-- ======================================================================
-- TagParser.ts
-- ======================================================================

/-- `SupportedTag` from `TagParser.ts` (constructors are prefixed with
`tag` because several spellings are Lean keywords). -/
inductive SupportedTag where
  | tagParam | tagReturn | tagReturns | tagThrows | tagException
  | tagSince | tagAuthor | tagDeprecated | tagSee | tagDoc | tagExample
  deriving Repr, DecidableEq

/-- Spelling of each supported tag. -/
def tagChars : SupportedTag → Str
  | .tagParam => str "param"
  | .tagReturn => str "return"
  | .tagReturns => str "returns"
  | .tagThrows => str "throws"
  | .tagException => str "exception"
  | .tagSince => str "since"
  | .tagAuthor => str "author"
  | .tagDeprecated => str "deprecated"
  | .tagSee => str "see"
  | .tagDoc => str "doc"
  | .tagExample => str "example"

/-- The alternation order of `TAG_LINE_PATTERN`
(`param|return|returns|throws|exception|since|author|deprecated|see|doc|example`). -/
def tagList : List SupportedTag :=
  [.tagParam, .tagReturn, .tagReturns, .tagThrows, .tagException,
   .tagSince, .tagAuthor, .tagDeprecated, .tagSee, .tagDoc, .tagExample]

/-- Case-insensitive prefix test (the tag regex carries the `i` flag and
its alternatives are lower-case words). -/
def ciPrefixAt (w : Str) (r : Str) : Bool :=
  (r.take w.length).map Char.toLower == w

/-- Word-boundary test `\b` after a tag name: the next character (if any)
must not be a word character. -/
def boundaryOk (r : Str) : Bool :=
  match r with
  | [] => true
  | c :: _ => !(isWordChar c)

/-- One alternative of the tag alternation: on success returns the tag and
the content group (the rest of the line after `\s*`). -/
def checkTag (t : SupportedTag) (r : Str) : Option (SupportedTag × Str) :=
  if ciPrefixAt (tagChars t) r && boundaryOk (r.drop (tagChars t).length) then
    some (t, (r.drop (tagChars t).length).dropWhile isJsWs)
  else none

/-- The tag alternation, tried in regex order; the first alternative whose
word and boundary both match wins. -/
def findTagIn : List SupportedTag → Str → Option (SupportedTag × Str)
  | [], _ => none
  | t :: ts, r =>
    match checkTag t r with
    | some res => some res
    | none => findTagIn ts r

/-- The alternation applied after the literal `@`. -/
def tagAfterAt (r : Str) : Option (SupportedTag × Str) := findTagIn tagList r

/-- The part of the tag-line pattern after the leading `\s*`: an optional
`*`, more whitespace, the literal `@` and the tag alternation. -/
def matchTagCore (r1 : Str) : Option (SupportedTag × Str) :=
  let r2 := match r1 with
    | '*' :: t => t.dropWhile isJsWs
    | _ => r1
  match r2 with
  | '@' :: rest => tagAfterAt rest
  | _ => none

/-- `TAG_LINE_PATTERN.exec` on one line:
`^\s*\*?\s*@(tag)\b\s*(content)$` (case-insensitive), returning the
recognized tag and the content group. -/
def matchTagLine (l : Str) : Option (SupportedTag × Str) :=
  matchTagCore (l.dropWhile isJsWs)

/-- `ParsedTagBlock` from `TagParser.ts`. -/
structure ParsedTagBlock where
  tag : SupportedTag
  content : Str
  deriving Repr, DecidableEq

/-- `normalizeJavadocLine` from `TagParser.ts`: strip one leading
`\s*\*\s?` decoration; a line without the `*` is returned unchanged. -/
def normalizeJavadocLine (line : Str) : Str :=
  match line.dropWhile isJsWs with
  | '*' :: r =>
    (match r with
     | c :: r' => if isJsWs c then r' else r
     | [] => [])
  | _ => line

/-- The tokenizer state of `tokenizeTagBlocks` (`activeTag`, `buffer`, and
the emitted blocks). -/
structure TokState where
  activeTag : Option SupportedTag
  buffer : List Str
  blocks : List ParsedTagBlock

/-- `flush` inside `tokenizeTagBlocks`. -/
def flushTok (st : TokState) : TokState :=
  match st.activeTag with
  | none => st
  | some t =>
    { activeTag := none, buffer := [],
      blocks := st.blocks ++ [{ tag := t, content := trimC (joinNl st.buffer) }] }

/-- One loop iteration of `tokenizeTagBlocks`. -/
def tokStep (st : TokState) (rawLine : Str) : TokState :=
  let line := normalizeJavadocLine rawLine
  match matchTagLine line with
  | some (t, content) =>
    let st' := flushTok st
    { activeTag := some t, buffer := [trimC content], blocks := st'.blocks }
  | none =>
    match st.activeTag with
    | some _ => { st with buffer := st.buffer ++ [trimC line] }
    | none => st

/-- `tokenizeTagBlocks` on an already split list of lines. -/
def tokenizeLines (lines : List Str) : List ParsedTagBlock :=
  (flushTok (lines.foldl tokStep
    { activeTag := none, buffer := [], blocks := [] })).blocks

/-- `tokenizeTagBlocks` from `TagParser.ts`. -/
def tokenizeTagBlocks (rawTags : Str) : List ParsedTagBlock :=
  tokenizeLines (splitLines rawTags)

/-- The head alternation of the `@param` regex:
`(<\s*[A-Za-z_$][\w$]*\s*>|[A-Za-z_$][\w$]*)`, returning the matched text
and the rest of the content. -/
def matchParamHead (content : Str) : Option (Str × Str) :=
  match content with
  | '<' :: r =>
    let ws1 := r.takeWhile isJsWs
    let r1 := r.dropWhile isJsWs
    (match r1 with
     | c :: _ =>
       if isIdentStart c then
         let idPart := r1.takeWhile isIdentChar
         let r2 := r1.drop idPart.length
         let ws2 := r2.takeWhile isJsWs
         let r3 := r2.dropWhile isJsWs
         (match r3 with
          | '>' :: rest => some ('<' :: ws1 ++ idPart ++ ws2 ++ ['>'], rest)
          | _ => none)
       else none
     | [] => none)
  | c :: _ =>
    if isIdentStart c then
      let idPart := content.takeWhile isIdentChar
      some (idPart, content.drop idPart.length)
    else none
  | [] => none

/-- `parseParamTag` from `TagParser.ts`. -/
def parseParamTag (content : Str) (paramTypes : JsMap Str) : Option ParamTag :=
  match matchParamHead content with
  | none => none
  | some (group1, rest) =>
    let rawName := group1.filter (fun c => !(isJsWs c))
    let description := trimC (rest.dropWhile isJsWs)
    let isTypeParameter :=
      rawName.head? == some '<' && rawName.getLast? == some '>'
    let type :=
      if isTypeParameter then str "type-parameter"
      else (mapGet paramTypes rawName).getD (str "unknown")
    some { name := rawName, type := type, description := description }

/-- `parseThrowsTag` from `TagParser.ts`: `^([\w.]+)\s*(.*)$` with `/s`. -/
def parseThrowsTag (content : Str) : Option ThrowsTag :=
  let typePart := content.takeWhile (fun c => isWordChar c || c = '.')
  if typePart.isEmpty then none
  else
    some { type := typePart,
           description := trimC ((content.drop typePart.length).dropWhile isJsWs) }

/-- The scan loop of `findMatchingIndex` from `TagParser.ts`, walking the
text from the start index with a running depth. -/
def fmiGo (openTok closeTok : Char) : Nat → Int → Str → Option Nat
  | _, _, [] => none
  | i, depth, ch :: t =>
    if ch = openTok then fmiGo openTok closeTok (i + 1) (depth + 1) t
    else if ch = closeTok then
      (if depth - 1 = 0 then some i else fmiGo openTok closeTok (i + 1) (depth - 1) t)
    else fmiGo openTok closeTok (i + 1) depth t

/-- `findMatchingIndex` from `TagParser.ts`: position of the balancing
close token, `none` for the `-1` of the source. -/
def findMatchingIndex (text : Str) (startIndex : Nat)
    (openTok closeTok : Char) : Option Nat :=
  fmiGo openTok closeTok startIndex 0 (text.drop startIndex)

/-- `String.prototype.indexOf` for a single character. -/
def indexOfChar (c : Char) (s : Str) : Option Nat := s.findIdx? (· == c)

/-- `extractParenContent` from `TagParser.ts`. -/
def extractParenContent (signature : Str) : Option Str :=
  match indexOfChar '(' signature with
  | none => none
  | some openParen =>
    match findMatchingIndex signature openParen '(' ')' with
    | none =>
      let tail := trimC (signature.drop (openParen + 1))
      if tail.isEmpty then none else some tail
    | some closeParen =>
      let content :=
        trimC ((signature.drop (openParen + 1)).take (closeParen - openParen - 1))
      if content.isEmpty then none else some content

/-- `PARAM_MODIFIERS` from `TagParser.ts`. -/
def PARAM_MODIFIERS : List Str := [str "final"]

/-- `stripLeadingAnnotation` from `TagParser.ts` (name shortened): remove
one leading annotation token from text starting with `@`. -/
def stripLeadingAnno (text : Str) : Str :=
  let afterName := (text.drop 1).dropWhile (fun c => isWordChar c || c = '.')
  let afterWs := afterName.dropWhile isJsWs
  match afterWs with
  | '(' :: _ =>
    (match fmiGo '(' ')' 0 0 afterWs with
     | none => []
     | some cp => afterWs.drop (cp + 1))
  | _ => afterWs

/-- The modifier scan inside `stripAnnotationsAndModifiers`: a modifier
word that is the whole text or is followed by a whitespace character. -/
def findStrippedModifier (mods : List Str) (trimmed : Str) : Option Str :=
  match mods with
  | [] => none
  | m :: rest =>
    let followedBySpace := trimmed.length == m.length ||
      (match trimmed.drop m.length with
       | c :: _ => isJsWs c
       | [] => false)
    if m.isPrefixOf trimmed && followedBySpace then some (trimmed.drop m.length)
    else findStrippedModifier rest trimmed

/-- The `while` loop of `stripAnnotationsAndModifiers`, driven by fuel
(every iteration strictly shortens the text, so `length + 1` fuel is
unreachable). -/
def samGo : Nat → Str → Str
  | 0, remaining => remaining
  | fuel + 1, remaining =>
    if remaining.isEmpty then remaining
    else
      let trimmed := remaining.dropWhile isJsWs
      if trimmed.head? == some '@' then samGo fuel (stripLeadingAnno trimmed)
      else
        match findStrippedModifier PARAM_MODIFIERS trimmed with
        | some rest => samGo fuel rest
        | none => trimmed

/-- `stripAnnotationsAndModifiers` from `TagParser.ts`. -/
def stripAnnotationsAndModifiers (paramDecl : Str) : Str :=
  samGo (paramDecl.length + 1) paramDecl

/-- The character loop of `splitByTopLevelComma` (depths are clamped at
zero exactly as `Math.max(0, d - 1)` does). -/
def splitTLCGo (current : Str) (angleDepth parenDepth : Nat)
    (result : List Str) : Str → List Str
  | [] => if (trimC current).isEmpty then result else result ++ [current]
  | ch :: rest =>
    if ch = '<' then splitTLCGo (current ++ [ch]) (angleDepth + 1) parenDepth result rest
    else if ch = '>' then splitTLCGo (current ++ [ch]) (angleDepth - 1) parenDepth result rest
    else if ch = '(' then splitTLCGo (current ++ [ch]) angleDepth (parenDepth + 1) result rest
    else if ch = ')' then splitTLCGo (current ++ [ch]) angleDepth (parenDepth - 1) result rest
    else if ch = ',' ∧ angleDepth = 0 ∧ parenDepth = 0 then
      splitTLCGo [] 0 0 (result ++ [current]) rest
    else splitTLCGo (current ++ [ch]) angleDepth parenDepth result rest

/-- `splitByTopLevelComma` from `TagParser.ts`. -/
def splitByTopLevelComma (paramsText : Str) : List Str :=
  splitTLCGo [] 0 0 [] paramsText

/-- `String.prototype.lastIndexOf(" ")`. -/
def lastSpaceIdx (s : Str) : Option Nat :=
  match s.reverse.findIdx? (· == ' ') with
  | none => none
  | some j => some (s.length - 1 - j)

/-- `parseSignatureParams` from `TagParser.ts`. -/
def parseSignatureParams (signature : Str) : JsMap Str :=
  match extractParenContent signature with
  | none => []
  | some paramsText =>
    (splitByTopLevelComma paramsText).foldl (fun result declaration =>
      let trimmed := trimC declaration
      if trimmed.isEmpty then result
      else
        let cleaned := stripAnnotationsAndModifiers trimmed
        match lastSpaceIdx cleaned with
        | none => result
        | some lastSpace =>
          let type := trimC (cleaned.take lastSpace)
          let name := trimC (cleaned.drop (lastSpace + 1))
          if name.isEmpty || type.isEmpty then result
          else mapSet result name type) []

/-- The character class `[\w$<>\[\].?,\s]` of the return-type regexes. -/
def rtClass (c : Char) : Bool :=
  isIdentChar c || c = '<' || c = '>' || c = '[' || c = ']' || c = '.' ||
  c = '?' || c = ',' || isJsWs c

/-- The suffix `\s+[A-Za-z_$][\w$]*\s*\(` of the return-type regexes,
tested at a given remainder (deterministic because identifier characters
are never whitespace). -/
def rtSuffixOk (s : Str) : Bool :=
  let wsPart := s.takeWhile isJsWs
  if wsPart.isEmpty then false
  else
    let r := s.dropWhile isJsWs
    match r with
    | c :: _ =>
      if isIdentStart c then
        let idPart := r.takeWhile isIdentChar
        ((r.drop idPart.length).dropWhile isJsWs).head? == some '('
      else false
    | [] => false

/-- The lazy group scan of
`/^([A-Za-z_$][\w$<>\[\].?,\s]*?)\s+[A-Za-z_$][\w$]*\s*\(/`: the shortest
group whose suffix matches wins; `acc` holds the group read so far in
reverse. -/
def lazyScanRT : Str → Str → Option Str
  | acc, rest =>
    if rtSuffixOk rest then some acc.reverse
    else
      match rest with
      | [] => none
      | c :: t => if rtClass c then lazyScanRT (c :: acc) t else none

/-- The full return-type match: first character `[A-Za-z_$]`, then the
lazy scan. -/
def matchReturnTypeLazy (s : Str) : Option Str :=
  match s with
  | c :: t => if isIdentStart c then lazyScanRT [c] t else none
  | [] => none

/-- The greedy test regex of `removeMethodGenericDecl`
(`/^[A-Za-z_$][\w$<>\[\].?,\s]*\s+[A-Za-z_$][\w$]*\s*\(/.test`): a match
exists for the greedy variant exactly when one exists for the lazy one. -/
def testTypeThenIdent (s : Str) : Bool := (matchReturnTypeLazy s).isSome

/-- The modifier words of `JAVA_METHOD_MODIFIER_PREFIX` in alternation
order. -/
def javaMethodModifierWords : List Str :=
  [str "public", str "private", str "protected", str "static", str "final",
   str "abstract", str "synchronized", str "default", str "native",
   str "strictfp"]

/-- One iteration of `(?:(?:public|...)\s+)*`: a modifier word followed by
at least one whitespace character (the greedy `\s+` swallows the whole
whitespace run). -/
def findModifierStep (mods : List Str) (s : Str) : Option Str :=
  match mods with
  | [] => none
  | m :: rest =>
    if m.isPrefixOf s then
      (match s.drop m.length with
       | c :: t => if isJsWs c then some (t.dropWhile isJsWs) else findModifierStep rest s
       | [] => findModifierStep rest s)
    else findModifierStep rest s

/-- The fueled iteration of the modifier run. -/
def smmGo : Nat → Str → Str
  | 0, s => s
  | fuel + 1, s =>
    match findModifierStep javaMethodModifierWords s with
    | some rest => smmGo fuel rest
    | none => s

/-- `String.prototype.replace(JAVA_METHOD_MODIFIER_PREFIX, "")`: removes
leading whitespace and the maximal run of modifier words each followed by
whitespace. -/
def stripMethodModifiers (s : Str) : Str :=
  smmGo (s.length + 1) (s.dropWhile isJsWs)

/-- `removeMethodGenericDecl` from `TagParser.ts`. -/
def removeMethodGenericDecl (signature : Str) : Str :=
  match indexOfChar '<' signature, indexOfChar '(' signature with
  | some openAngle, some openParen =>
    if openParen < openAngle then signature
    else
      match findMatchingIndex signature openAngle '<' '>' with
      | none => signature
      | some closeAngle =>
        let afterGeneric := (signature.drop (closeAngle + 1)).dropWhile isJsWs
        if testTypeThenIdent afterGeneric then
          signature.take openAngle ++ afterGeneric
        else signature
  | _, _ => signature

/-- `parseReturnType` from `TagParser.ts`. -/
def parseReturnType (signature : Str) : Str :=
  let cleanSignature := trimC (signature.takeWhile (· != '{'))
  let withoutGenericDecl := removeMethodGenericDecl cleanSignature
  let withoutModifiers := stripMethodModifiers withoutGenericDecl
  match matchReturnTypeLazy withoutModifiers with
  | some g => trimC g
  | none => str "void"

/-- The per-block dispatch of the `parseTagTable` loop. -/
def applyBlock (paramTypes : JsMap Str) (returnType : Str)
    (acc : TagTable) (block : ParsedTagBlock) : TagTable :=
  let content := trimC block.content
  match block.tag with
  | .tagParam =>
    (match parseParamTag content paramTypes with
     | some p => { acc with params := acc.params ++ [p] }
     | none => acc)
  | .tagReturn | .tagReturns =>
    if returnType ≠ str "void" then
      { acc with returns := some { type := returnType, description := content } }
    else acc
  | .tagThrows | .tagException =>
    (match parseThrowsTag content with
     | some t => { acc with throws := acc.throws ++ [t] }
     | none => acc)
  | .tagSince => { acc with since := if content.isEmpty then none else some content }
  | .tagAuthor => { acc with author := if content.isEmpty then none else some content }
  | .tagDeprecated =>
    { acc with deprecated := if content.isEmpty then none else some content }
  | .tagSee => if content.isEmpty then acc else { acc with see := acc.see ++ [content] }
  | .tagDoc => { acc with doc := if content.isEmpty then none else some content }
  | .tagExample =>
    { acc with exampleTag := if content.isEmpty then none else some content }

/-- `parseTagTable` from `TagParser.ts`. -/
def parseTagTable (rawTags signature : Str) : TagTable :=
  if (trimC rawTags).isEmpty then createEmptyTagTable
  else
    let blocks := tokenizeTagBlocks rawTags
    if blocks.isEmpty then createEmptyTagTable
    else
      let paramTypes := parseSignatureParams signature
      let returnType := parseReturnType signature
      blocks.foldl (applyBlock paramTypes returnType) createEmptyTagTable

-- ======================================================================
-- JavaDocParser.ts
-- ======================================================================

/-- `FlattenedSymbol`: a leaf symbol paired with its owning container
name. -/
structure FlatSym where
  symbol : DocSym
  belongsTo : Str

/-- The container-name extension of `flattenSymbols`
(`parentName ? parentName + "." + name : name`; the empty string is
falsy). -/
def extendName (parentName name : Str) : Str :=
  if parentName.isEmpty then name else parentName ++ '.' :: name

/-- `flattenSymbols` from `JavaDocParser.ts`: containers are expanded
recursively (only when they have children), leaf declarations are emitted
with their owner path (or the `"Unknown"` sentinel), and symbols of any
other kind are dropped together with their subtree. -/
def flattenSymbols : List DocSym → Str → List FlatSym
  | [], _ => []
  | s :: rest, parentName =>
    (if isClassLikeSymbol s then
      (if 0 < s.children.length then
        flattenSymbols s.children (extendName parentName s.name)
      else [])
    else if isMethodSymbol s || isFieldSymbol s || isEnumMemberSymbol s then
      [{ symbol := s,
         belongsTo := if parentName.isEmpty then str "Unknown" else parentName }]
    else []) ++ flattenSymbols rest parentName
termination_by syms _ => sizeOf syms
decreasing_by
  · have hlt : sizeOf s.children < sizeOf s := by
      cases s with
      | mk n k d sr r c => simp [DocSym.children]
    simp
    omega
  · simp

/-- The emission relation of the flattener: a leaf record is produced from
a symbol list and owner path exactly when it is reachable through a chain
of class-like containers ending at a method/constructor/function,
field/constant, or enum-member symbol; the record carries the dot-joined
container path, or `"Unknown"` for an empty path. -/
inductive EmitsFrom : List DocSym → Str → FlatSym → Prop where
  | leaf {syms : List DocSym} {parentName : Str} {s : DocSym} :
      s ∈ syms → isClassLikeSymbol s = false →
      (isMethodSymbol s || isFieldSymbol s || isEnumMemberSymbol s) = true →
      EmitsFrom syms parentName
        { symbol := s,
          belongsTo := if parentName.isEmpty then str "Unknown" else parentName }
  | nest {syms : List DocSym} {parentName : Str} {s : DocSym} {fs : FlatSym} :
      s ∈ syms → isClassLikeSymbol s = true →
      EmitsFrom s.children (extendName parentName s.name) fs →
      EmitsFrom syms parentName fs

/-- `annotationPattern` from `JavaDocParser.ts`
(`/^\s*@[\w.]+/.test`, name shortened). -/
def annTest (l : Str) : Bool :=
  match l.dropWhile isJsWs with
  | '@' :: rest => !((rest.takeWhile (fun c => isWordChar c || c = '.')).isEmpty)
  | _ => false

/-- `line.match(/\(/g)?.length ?? 0` and its close-paren analogue. -/
def countChar (c : Char) (l : Str) : Nat := l.count c

/-- The inner annotation-argument loop of `onlyBlankOrAnnotations`:
consume further lines while the running paren depth stays positive. -/
def skipAnnArgs : Int → List Str → List Str
  | d, ls =>
    if d ≤ 0 then ls
    else
      match ls with
      | [] => []
      | l :: t =>
        skipAnnArgs (d + (countChar '(' l : Int) - (countChar ')' l : Int)) t

/-- The `while` loop of `onlyBlankOrAnnotations`, driven by fuel (every
iteration consumes at least one line, so `length + 1` fuel is enough). -/
def obaGo : Nat → List Str → Bool
  | 0, _ => true
  | fuel + 1, ls =>
    match ls with
    | [] => true
    | l :: t =>
      let line := trimC l
      if line.isEmpty then obaGo fuel t
      else if !(annTest line) then false
      else obaGo fuel
        (skipAnnArgs ((countChar '(' l : Int) - (countChar ')' l : Int)) t)

/-- `onlyBlankOrAnnotations` from `JavaDocParser.ts`. -/
def onlyBlankOrAnnotations (lines : List Str) : Bool :=
  obaGo (lines.length + 1) lines

/-- The inner upward scan of `extractComment`: from the closing line down
to 0, look for the `/**` that opens the block closing at `endLine`; a
second `*/` strictly above the closing line abandons the candidate (the
line at index 0 ends the scan either way). -/
def commentInner (lines : List Str) (endLine : Nat) : Nat → Option Str
  | 0 =>
    let line := lines.getD 0 []
    if containsSub (str "/**") line then some (joinNl (lines.take (endLine + 1)))
    else none
  | s' + 1 =>
    let line := lines.getD (s' + 1) []
    if containsSub (str "/**") line then
      some (joinNl ((lines.drop (s' + 1)).take (endLine + 1 - (s' + 1))))
    else if decide (s' + 1 ≠ endLine) && containsSub (str "*/") line then none
    else commentInner lines endLine s'

/-- One candidate test of the outer scan of `extractComment`: the line at
`e` must be non-blank, end with `*/`, and the gap up to the target line
must be blanks/annotations only; then the inner scan looks for `/**`. -/
def commentCandidateAt (lines : List Str) (targetLine e : Nat) : Option Str :=
  let trimmed := trimC (lines.getD e [])
  if trimmed.isEmpty then none
  else if !((str "*/").isSuffixOf trimmed) then none
  else if !(onlyBlankOrAnnotations
      ((lines.drop (e + 1)).take (targetLine - (e + 1)))) then none
  else commentInner lines e e

/-- The outer upward scan of `extractComment`: `e` runs from
`targetLine - 1` down to 0 looking for a block-comment close whose gap to
the target consists of blanks and annotations only. -/
def commentOuter (lines : List Str) (targetLine : Nat) : Nat → Str
  | 0 =>
    (match commentCandidateAt lines targetLine 0 with
     | some c => c
     | none => [])
  | e' + 1 =>
    (match commentCandidateAt lines targetLine (e' + 1) with
     | some c => c
     | none => commentOuter lines targetLine e')

/-- `extractComment` from `JavaDocParser.ts`. -/
def extractComment (text : Str) (targetLine : Nat) : Str :=
  let lines := splitNl text
  match targetLine with
  | 0 => []
  | t + 1 => commentOuter lines targetLine t

/-- `extractMemberComment` from `JavaDocParser.ts`: a recovered comment
identical to the non-empty class comment is discarded. -/
def extractMemberComment (text : Str) (targetLine : Nat)
    (classComment : Str) : Str :=
  let raw := extractComment text targetLine
  if raw.isEmpty then []
  else if !(classComment.isEmpty) && raw == classComment then []
  else raw

/-- `replace(/\r\n/g, "\n")`. -/
def replaceCRLF : Str → Str
  | '\r' :: '\n' :: t => '\n' :: replaceCRLF t
  | c :: t => c :: replaceCRLF t
  | [] => []

/-- `replace(/\/\*\*|\*\//g, "")`. -/
def removeJavadocDelims : Str → Str
  | '/' :: '*' :: '*' :: t => removeJavadocDelims t
  | '*' :: '/' :: t => removeJavadocDelims t
  | c :: t => c :: removeJavadocDelims t
  | [] => []

/-- `replace(/\n{3,}/g, "\n\n")`: a run of three or more newlines
collapses to two (`run` counts the pending newlines). -/
def collapseNl3Go (run : Nat) : Str → Str
  | [] => if 3 ≤ run then ['\n', '\n'] else List.replicate run '\n'
  | c :: t =>
    if c = '\n' then collapseNl3Go (run + 1) t
    else
      (if 3 ≤ run then ['\n', '\n'] else List.replicate run '\n') ++
        c :: collapseNl3Go 0 t

/-- `replace(/\n{3,}/g, "\n\n")`. -/
def collapseNl3 (s : Str) : Str := collapseNl3Go 0 s

/-- `cleanComment` from `JavaDocParser.ts`. -/
def cleanComment (raw : Str) : Str :=
  trimC (collapseNl3 (joinNl
    ((splitNl (removeJavadocDelims (replaceCRLF raw))).map normalizeJavadocLine)))

/-- The character scan of `search(/@\w+/)`: first position of an `@`
followed by a word character. -/
def searchTagIdx : Nat → Str → Option Nat
  | _, [] => none
  | i, '@' :: c :: t =>
    if isWordChar c then some i else searchTagIdx (i + 1) (c :: t)
  | i, _ :: t => searchTagIdx (i + 1) t

/-- `cleaned.search(/@\w+/)`. -/
def searchTag (s : Str) : Option Nat := searchTagIdx 0 s

/-- `parseJavadoc` from `JavaDocParser.ts`: the cleaned comment is split at
the first `@word` occurrence into the free-text description and the tag
text handed to `parseTagTable`. -/
def parseJavadoc (rawComment signature : Str) : Str × TagTable :=
  let cleaned := cleanComment rawComment
  match searchTag cleaned with
  | none => (cleaned, parseTagTable [] signature)
  | some tagIndex =>
    (trimC (cleaned.take tagIndex), parseTagTable (cleaned.drop tagIndex) signature)

/-- `replace(/\s+/g, " ")`: each maximal whitespace run becomes one space
(`prevWs` records whether the previous character was inside a run). -/
def collapseWsGo (prevWs : Bool) : Str → Str
  | [] => []
  | c :: t =>
    if isJsWs c then
      (if prevWs then collapseWsGo true t else ' ' :: collapseWsGo true t)
    else c :: collapseWsGo false t

/-- `signature.replace(/\s+/g, " ").trim()`. -/
def collapseWs (s : Str) : Str := trimC (collapseWsGo false s)

/-- The character scan of one line inside `extractFullSignature`: either
the finished signature (paren depth returned to zero after an opening
paren) or the updated accumulator. -/
def scanSigChars (acc : Str) (depth : Int) (found : Bool) :
    Str → Str ⊕ (Str × Int × Bool)
  | [] => .inr (acc, depth, found)
  | c :: t =>
    if c = '(' then scanSigChars (acc ++ [c]) (depth + 1) true t
    else if c = ')' then
      (if found ∧ depth - 1 = 0 then .inl (acc ++ [c])
       else scanSigChars (acc ++ [c]) (depth - 1) found t)
    else scanSigChars (acc ++ [c]) depth found t

/-- `MAX_SIGNATURE_LINES` from `JavaDocParser.ts`. -/
def MAX_SIGNATURE_LINES : Nat := 15

/-- The line loop of `extractFullSignature` (a space joins the lines). -/
def efsGo : List Str → Str → Int → Bool → Str
  | [], acc, _, _ => collapseWs acc
  | l :: rest, acc, depth, found =>
    match scanSigChars acc depth found l with
    | .inl sig => collapseWs sig
    | .inr (acc', depth', found') => efsGo rest (acc' ++ [' ']) depth' found'

/-- `extractFullSignature` from `JavaDocParser.ts`. -/
def extractFullSignature (lines : List Str) (startLine : Nat) : Str :=
  efsGo ((lines.drop startLine).take MAX_SIGNATURE_LINES) [] 0 false

/-- `extractAccessModifierFromLine` from `JavaDocParser.ts`. -/
def extractAccessModifierFromLine (line : Str) : Str :=
  if containsSub (str "public ") line then str "public"
  else if containsSub (str "protected ") line then str "protected"
  else if containsSub (str "private ") line then str "private"
  else str "default"

/-- `extractSignatureFromLine` from `JavaDocParser.ts`. -/
def extractSignatureFromLine (line : Str) : Str :=
  let withoutBody := trimC (line.takeWhile (· != '{'))
  if withoutBody.isEmpty then line else withoutBody

/-- `split(/\s+/)` on trimmed text: the whitespace-separated words (`cur`
accumulates the current word in reverse). -/
def wordsGo (cur : Str) : Str → List Str
  | [] => if cur.isEmpty then [] else [cur.reverse]
  | c :: t =>
    if isJsWs c then
      (if cur.isEmpty then wordsGo [] t else cur.reverse :: wordsGo [] t)
    else wordsGo (c :: cur) t

/-- `extractFieldType` from `JavaDocParser.ts`. -/
def extractFieldType (line : Str) : Str :=
  let withoutAssign := line.takeWhile (· != '=')
  let withoutSemicolon :=
    trimC (if withoutAssign.getLast? == some ';' then withoutAssign.dropLast
           else withoutAssign)
  let parts := wordsGo [] withoutSemicolon
  if 2 ≤ parts.length then parts.getD (parts.length - 2) (str "unknown")
  else str "unknown"

/-- `symbol.selectionRange?.start.line ?? symbol.range.start.line`: raises
the modelled `TypeError` when both ranges are absent. -/
def symbolStartLine (s : DocSym) : Except Str Nat :=
  match s.selectionRange with
  | some r => .ok r.startL
  | none =>
    match s.range with
    | some r => .ok r.startL
    | none => .error (str "TypeError")

/-- `symbol.range.end.line`: raises the modelled `TypeError` when the range
is absent. -/
def symbolEndLine (s : DocSym) : Except Str Nat :=
  match s.range with
  | some r => .ok r.endL
  | none => .error (str "TypeError")

/-- The body of `parseMethod` (the code inside the `try`); a failing line
lookup propagates as the thrown `TypeError` does. -/
def parseMethodBody (text : Str) (fs : FlatSym) (classComment : Str) :
    Except Str MethodDoc :=
  match symbolStartLine fs.symbol with
  | .error e => .error e
  | .ok startLine =>
    match symbolEndLine fs.symbol with
    | .error e => .error e
    | .ok endLine =>
      let lines := splitNl text
      let fullSignature := extractFullSignature lines startLine
      let rawComment := extractMemberComment text startLine classComment
      let hasComment := !(rawComment.isEmpty)
      let dt := if hasComment then parseJavadoc rawComment fullSignature
                else ([], EMPTY_TAG_TABLE)
      let accessModifier := extractAccessModifierFromLine fullSignature
      let kind := if isConstructorSymbol fs.symbol then str "constructor"
                  else str "method"
      let displaySignature :=
        if !(fs.symbol.detail.isEmpty) then fs.symbol.detail
        else extractSignatureFromLine (lines.getD startLine [])
      .ok { id := fs.symbol.name ++ '_' :: Nat.toDigits 10 startLine,
            kind := kind,
            name := fs.symbol.name,
            signature := displaySignature,
            startLine := startLine,
            endLine := endLine,
            hasComment := hasComment,
            description := dt.1,
            tags := dt.2,
            belongsTo := fs.belongsTo,
            accessModifier := accessModifier }

/-- `parseMethod` from `JavaDocParser.ts`: the `catch` turns any failure
into `null` and logs the declaration's name; nothing propagates. -/
def parseMethod (text : Str) (fs : FlatSym) (classComment : Str) :
    Option MethodDoc × List Str :=
  match parseMethodBody text fs classComment with
  | .ok m => (some m, [])
  | .error _ =>
    (none, [str "[JavaDocParser] Failed to parse method: " ++ fs.symbol.name])

/-- `FieldDoc` from `types.ts`. -/
structure FieldDoc where
  name : Str
  type : Str
  signature : Str
  startLine : Nat
  hasComment : Bool
  description : Str
  isConstant : Bool
  accessModifier : Str
  belongsTo : Str
  deriving Repr, DecidableEq

/-- The body of `parseField` (the code inside the `try`). -/
def parseFieldBody (text : Str) (fs : FlatSym) (classComment : Str) :
    Except Str FieldDoc :=
  match symbolStartLine fs.symbol with
  | .error e => .error e
  | .ok startLine =>
    let lines := splitNl text
    let lineText := trimC (lines.getD startLine [])
    let rawComment := extractMemberComment text startLine classComment
    let hasComment := !(rawComment.isEmpty)
    let description := if hasComment then cleanComment rawComment else []
    let isConstant := containsSub (str "static") lineText &&
      containsSub (str "final") lineText
    let accessModifier := extractAccessModifierFromLine lineText
    let fieldType := if !(fs.symbol.detail.isEmpty) then fs.symbol.detail
                     else extractFieldType lineText
    .ok { name := fs.symbol.name, type := fieldType, signature := lineText,
          startLine := startLine, hasComment := hasComment,
          description := description, isConstant := isConstant,
          accessModifier := accessModifier, belongsTo := fs.belongsTo }

/-- `parseField` from `JavaDocParser.ts` with its `catch`. -/
def parseField (text : Str) (fs : FlatSym) (classComment : Str) :
    Option FieldDoc × List Str :=
  match parseFieldBody text fs classComment with
  | .ok f => (some f, [])
  | .error _ =>
    (none, [str "[JavaDocParser] Failed to parse field: " ++ fs.symbol.name])

/-- Stable ascending insertion by `startLine` (the observable behavior of
`sort((a, b) => a.startLine - b.startLine)` on method documents). -/
def insertByStart (m : MethodDoc) : List MethodDoc → List MethodDoc
  | [] => [m]
  | x :: t =>
    if x.startLine ≤ m.startLine then x :: insertByStart m t else m :: x :: t

/-- Stable sort of method documents by start line. -/
def sortByStart (ms : List MethodDoc) : List MethodDoc :=
  ms.foldl (fun acc m => insertByStart m acc) []

/-- Stable ascending insertion by `startLine` on field documents. -/
def insertFieldByStart (f : FieldDoc) : List FieldDoc → List FieldDoc
  | [] => [f]
  | x :: t =>
    if x.startLine ≤ f.startLine then x :: insertFieldByStart f t
    else f :: x :: t

/-- Stable sort of field documents by start line. -/
def sortFieldsByStart (fs : List FieldDoc) : List FieldDoc :=
  fs.foldl (fun acc f => insertFieldByStart f acc) []

/-- The method pipeline of `parse`: filter the method symbols, parse each,
drop the failures, sort by start line. -/
def methodsOf (text : Str) (classComment : Str)
    (flattened : List FlatSym) : List MethodDoc :=
  sortByStart ((flattened.filter (fun fs => isMethodSymbol fs.symbol)).filterMap
    (fun fs => (parseMethod text fs classComment).1))

/-- The log lines produced while running the method pipeline. -/
def methodLogsOf (text : Str) (classComment : Str)
    (flattened : List FlatSym) : List Str :=
  (flattened.filter (fun fs => isMethodSymbol fs.symbol)).flatMap
    (fun fs => (parseMethod text fs classComment).2)

/-- The field pipeline of `parse`. -/
def fieldsOf (text : Str) (classComment : Str)
    (flattened : List FlatSym) : List FieldDoc :=
  sortFieldsByStart ((flattened.filter (fun fs => isFieldSymbol fs.symbol)).filterMap
    (fun fs => (parseField text fs classComment).1))

-- ======================================================================
-- Reconstruction of tokenized tag blocks (stated from the claim)
-- ======================================================================

/-- The claim's reconstruction of a tokenized block into tag lines: one
`@tag` line seeded with the block's first content line, followed by the
block's remaining content lines. -/
def reconLines (b : ParsedTagBlock) : List Str :=
  match splitNl b.content with
  | [] => ['@' :: tagChars b.tag]
  | c0 :: rest => ('@' :: tagChars b.tag ++ ' ' :: c0) :: rest

/-- The claim's reconstructed tag text: the rejoined tag lines of all
blocks. -/
def reconstructTagText (bs : List ParsedTagBlock) : Str :=
  joinNl (bs.flatMap reconLines)

/-- No continuation line of the block's content begins with an asterisk
(such a line would lose its leading `*` decoration to
`normalizeJavadocLine` when the reconstructed text is re-tokenized). -/
def noStarCont (b : ParsedTagBlock) : Prop :=
  ∀ l ∈ (splitNl b.content).tail, l.head? ≠ some '*'

/-- Well-formedness of a tokenizer-produced block: the content is trimmed,
each of its lines is trimmed and newline-free, and no continuation line
matches the tag-line pattern. -/
def BlockWf (b : ParsedTagBlock) : Prop :=
  trimC b.content = b.content ∧
  (∀ l ∈ splitNl b.content, trimC l = l ∧ '\n' ∉ l) ∧
  (∀ l ∈ (splitNl b.content).tail, matchTagLine l = none)

/-- Pairwise disjointness of consecutive declaration ranges: every
declaration ends strictly before the next one starts. -/
abbrev rangesDisjoint (methods : List MethodDoc) : Prop :=
  List.Chain' (fun a b => a.endLine < b.startLine) methods

/-- The concrete 128-entry cache used to witness the eviction clause. -/
def lruFullCache : JsMap CachedSymbols :=
  (List.range MAX_CACHE_ENTRIES).map
    (fun i => ([Char.ofNat (i + 1)], { version := 0, symbols := [] }))

/-- A concrete resolver state with one in-flight request, used to witness
the coalescing clauses. -/
def pendingState : ResolverState :=
  { symbolCache := [], inFlight := [(requestKey (str "file:a.java") (some 1), 7)] }

/-- The concrete inputs of the de-duplication witness: a field symbol whose
position is reported at the class-declaration line, as Lombok-generated
symbols are. -/
def dupFieldSym : FlatSym :=
  { symbol := DocSym.mk (str "log") 7 [] (some { startL := 1, endL := 1 })
      (some { startL := 1, endL := 1 }) [],
    belongsTo := str "A" }

/-- The source text of the de-duplication witness. -/
def dupText : Str := str "/** C */\nclass A { int log; }"

/-- The parsed field of the de-duplication witness. -/
def dupFieldDoc : FieldDoc :=
  { name := str "log", type := str "log;",
    signature := str "class A { int log; }", startLine := 1,
    hasComment := false, description := [], isConstant := false,
    accessModifier := str "default", belongsTo := str "A" }

/-- The malformed method symbol of the isolation witness: its full range is
absent, so extracting its details raises the modelled `TypeError`. -/
def brokenMethodSym : FlatSym :=
  { symbol := DocSym.mk (str "broken") 5 [] none none [],
    belongsTo := str "A" }


/-- The leading `\s*\*?\s*` handling of the tag-line pattern, factored
out of `matchTagCore`: strip one optional `*` and the whitespace after it. -/
def starStripped (r1 : Str) : Str :=
  match r1 with
  | '*' :: t => t.dropWhile isJsWs
  | _ => r1

/-- The literal `@` followed by the tag alternation, factored out of
`matchTagCore`. -/
def atDispatch (r2 : Str) : Option (SupportedTag × Str) :=
  match r2 with
  | '@' :: rest => tagAfterAt rest
  | _ => none

-- ----------------------------------------------------------------------
-- Correctness of the cursor locator on range-disjoint sorted lists
-- ----------------------------------------------------------------------

lemma rangesDisjoint_step {methods : List MethodDoc}
    (h : rangesDisjoint methods) {i : Nat} {mi mj : MethodDoc}
    (hi : methods[i]? = some mi) (hj : methods[i + 1]? = some mj) :
    mi.endLine < mj.startLine := by
  rw [rangesDisjoint, List.chain'_iff_get] at h
  rcases List.getElem?_eq_some_iff.mp hi with ⟨hil, hie⟩
  rcases List.getElem?_eq_some_iff.mp hj with ⟨hjl, hje⟩
  have hstep := h i (by omega)
  simp only [List.get_eq_getElem] at hstep
  rw [hie, hje] at hstep
  exact hstep

lemma rangesDisjoint_gap {methods : List MethodDoc}
    (hch : rangesDisjoint methods)
    (hwf : ∀ m ∈ methods, m.startLine ≤ m.endLine)
    {i j : Nat} {mi mj : MethodDoc} (hij : i < j)
    (hi : methods[i]? = some mi) (hj : methods[j]? = some mj) :
    mi.endLine < mj.startLine := by
  obtain ⟨d, rfl⟩ : ∃ d, j = i + 1 + d := ⟨j - (i + 1), by omega⟩
  clear hij
  induction d generalizing mj with
  | zero => exact rangesDisjoint_step hch hi hj
  | succ d ih =>
    have hjl : i + 1 + (d + 1) < methods.length := by
      rcases List.getElem?_eq_some_iff.mp hj with ⟨h, -⟩
      exact h
    have hmidl : i + 1 + d < methods.length := by omega
    have hmid : methods[i + 1 + d]? = some (methods[i + 1 + d]) :=
      List.getElem?_eq_getElem hmidl
    have h1 := ih hmid
    have h2 : (methods[i + 1 + d]).endLine < mj.startLine := by
      have : methods[(i + 1 + d) + 1]? = some mj := by
        have : i + 1 + (d + 1) = (i + 1 + d) + 1 := by omega
        rw [← this]; exact hj
      exact rangesDisjoint_step hch hmid this
    have h3 : (methods[i + 1 + d]).startLine ≤ (methods[i + 1 + d]).endLine :=
      hwf _ (List.getElem?_mem hmid)
    omega

lemma rangesDisjoint_start_mono {methods : List MethodDoc}
    (hch : rangesDisjoint methods)
    (hwf : ∀ m ∈ methods, m.startLine ≤ m.endLine)
    {i j : Nat} {mi mj : MethodDoc} (hij : i ≤ j)
    (hi : methods[i]? = some mi) (hj : methods[j]? = some mj) :
    mi.startLine ≤ mj.startLine := by
  rcases Nat.eq_or_lt_of_le hij with rfl | h
  · rw [hi] at hj; cases hj; exact le_refl _
  · have hgap := rangesDisjoint_gap hch hwf h hi hj
    have := hwf mi (List.getElem?_mem hi)
    omega

lemma rangesDisjoint_end_mono {methods : List MethodDoc}
    (hch : rangesDisjoint methods)
    (hwf : ∀ m ∈ methods, m.startLine ≤ m.endLine)
    {i j : Nat} {mi mj : MethodDoc} (hij : i ≤ j)
    (hi : methods[i]? = some mi) (hj : methods[j]? = some mj) :
    mi.endLine ≤ mj.endLine := by
  rcases Nat.eq_or_lt_of_le hij with rfl | h
  · rw [hi] at hj; cases hj; exact le_refl _
  · have hgap := rangesDisjoint_gap hch hwf h hi hj
    have := hwf mj (List.getElem?_mem hj)
    omega

/-- Loop invariant of the upper-bound binary search: on exit, every index
below the result has `startLine ≤ line` and every index at or above it has
`line < startLine`. -/
lemma findRightmostGo_spec (methods : List MethodDoc) (line : Nat)
    (hmono : ∀ (i j : Nat) (mi mj : MethodDoc), i ≤ j → methods[i]? = some mi →
      methods[j]? = some mj → mi.startLine ≤ mj.startLine) :
    ∀ (fuel left right : Nat), right - left ≤ fuel → left ≤ right →
      right ≤ methods.length →
      (∀ i mi, i < left → methods[i]? = some mi → mi.startLine ≤ line) →
      (∀ i mi, right ≤ i → methods[i]? = some mi → line < mi.startLine) →
      left ≤ findRightmostGo methods line fuel left right ∧
      findRightmostGo methods line fuel left right ≤ right ∧
      (∀ i mi, i < findRightmostGo methods line fuel left right →
        methods[i]? = some mi → mi.startLine ≤ line) ∧
      (∀ i mi, findRightmostGo methods line fuel left right ≤ i →
        methods[i]? = some mi → line < mi.startLine) := by
  intro fuel
  induction fuel with
  | zero =>
    intro left right h1 h2 h3 hL hR
    have heq : left = right := by omega
    subst heq
    simp only [findRightmostGo]
    exact ⟨le_refl _, le_refl _, hL, fun i mi hle => hR i mi hle⟩
  | succ fuel ih =>
    intro left right h1 h2 h3 hL hR
    by_cases hlr : left < right
    · have hmidlt : left + (right - left) / 2 < right := by omega
      have hmidge : left ≤ left + (right - left) / 2 := by omega
      have hmlen : left + (right - left) / 2 < methods.length := by omega
      have hmsome := List.getElem?_eq_getElem hmlen
      simp only [findRightmostGo, if_pos hlr, hmsome]
      set mid := left + (right - left) / 2 with hmiddef
      set m := methods[mid] with hmdef
      by_cases hc : m.startLine ≤ line
      · simp only [if_pos hc]
        have hrec := ih (mid + 1) right (by omega) (by omega) h3
          (fun i mi hilt hsome => ?_) hR
        · obtain ⟨a, b, c', d⟩ := hrec
          exact ⟨le_trans (show left ≤ mid + 1 by omega) a, b, c', d⟩
        · have hle : i ≤ mid := by omega
          have := hmono i mid mi m hle hsome hmsome
          omega
      · simp only [if_neg hc]
        have hrec := ih left mid (by omega) (by omega) (by omega) hL
          (fun i mi hile hsome => ?_)
        · obtain ⟨a, b, c', d⟩ := hrec
          exact ⟨a, le_trans b (show mid ≤ right by omega), c', d⟩
        · have := hmono mid i m mi hile hmsome hsome
          omega
    · have heq : left = right := by omega
      subst heq
      simp only [findRightmostGo, if_neg hlr]
      exact ⟨le_refl _, le_refl _, hL, fun i mi hle => hR i mi hle⟩

/-- C1 (amended): on a start-sorted list whose declaration ranges are
well-formed (`startLine ≤ endLine`) and pairwise disjoint, `binarySearchMethod`
returns exactly the declaration that contains the query line, and `none`
when no declaration contains it (in particular for query lines in gaps);
on overlapping ranges only the rightmost start-candidate is ever considered
(see the counterexample). -/
theorem c1_cursor_locator_disjoint (methods : List MethodDoc) (line : Nat)
    (hch : rangesDisjoint methods)
    (hwf : ∀ m ∈ methods, m.startLine ≤ m.endLine) :
    (∀ d, binarySearchMethod methods line = some d →
      d ∈ methods ∧ d.startLine ≤ line ∧ line ≤ d.endLine) ∧
    (∀ d ∈ methods, d.startLine ≤ line → line ≤ d.endLine →
      binarySearchMethod methods line = some d) := by
  constructor
  · -- soundness: whatever is returned passed the containment check
    intro d hd
    unfold binarySearchMethod at hd
    by_cases h0 : methods.length = 0
    · simp [h0] at hd
    · have hlen : 0 < methods.length := Nat.pos_of_ne_zero h0
      have h0some := List.getElem?_eq_getElem hlen
      have hlsome := List.getElem?_eq_getElem
        (show methods.length - 1 < methods.length by omega)
      simp only [if_neg h0, h0some, hlsome] at hd
      split at hd
      · exact absurd hd (by simp)
      · split at hd
        · exact absurd hd (by simp)
        · split at hd
          · rename_i candidate hcand
            split at hd
            · rename_i hin
              cases hd
              refine ⟨List.getElem?_mem hcand, ?_⟩
              simp only [isLineInsideMethod, Bool.and_eq_true, decide_eq_true_eq] at hin
              exact hin
            · exact absurd hd (by simp)
          · exact absurd hd (by simp)
  · -- completeness: a containing declaration is found
    intro d hd hs he
    obtain ⟨i, hi⟩ := List.mem_iff_getElem?.mp hd
    have hil : i < methods.length := by
      rcases List.getElem?_eq_some_iff.mp hi with ⟨h, -⟩; exact h
    have hlen0 : ¬ methods.length = 0 := by omega
    have h0some := List.getElem?_eq_getElem (show 0 < methods.length by omega)
    have hlsome := List.getElem?_eq_getElem
      (show methods.length - 1 < methods.length by omega)
    have hmono : ∀ (i j : Nat) (mi mj : MethodDoc), i ≤ j → methods[i]? = some mi →
        methods[j]? = some mj → mi.startLine ≤ mj.startLine :=
      fun _ _ _ _ hij ha hb => rangesDisjoint_start_mono hch hwf hij ha hb
    have hfs : ¬ (line < (methods[0]).startLine ∨
        (methods[methods.length - 1]).endLine < line) := by
      push_neg
      constructor
      · have := rangesDisjoint_start_mono hch hwf (show 0 ≤ i by omega) h0some hi
        omega
      · have := rangesDisjoint_end_mono hch hwf
          (show i ≤ methods.length - 1 by omega) hi hlsome
        omega
    have spec := findRightmostGo_spec methods line hmono methods.length 0
      methods.length (by omega) (by omega) (le_refl _)
      (fun i mi hilt _ => absurd hilt (by omega))
      (fun i mi hile hsome => by
        rcases List.getElem?_eq_some_iff.mp hsome with ⟨h, -⟩; omega)
    set L := findRightmostGo methods line methods.length 0 methods.length
      with hLdef
    obtain ⟨-, hLle, hbelow, habove⟩ := spec
    have hiL : i < L := by
      by_contra hcon
      push_neg at hcon
      have := habove i d hcon hi
      omega
    have hcl : L - 1 < methods.length := by omega
    have hcand := List.getElem?_eq_getElem hcl
    have hcs : (methods[L - 1]).startLine ≤ line :=
      hbelow (L - 1) (methods[L - 1]) (by omega) hcand
    have hieq : i = L - 1 := by
      by_contra hne
      have hilt : i < L - 1 := by omega
      have := rangesDisjoint_gap hch hwf hilt hi hcand
      omega
    have hdc : methods[L - 1]? = some d := by rw [← hieq]; exact hi
    have hins : isLineInsideMethod d line = true := by
      simp only [isLineInsideMethod, Bool.and_eq_true, decide_eq_true_eq]
      exact ⟨hs, he⟩
    have htn : ((L : Int) - 1).toNat = L - 1 := by omega
    have hnn : ¬ ((L : Int) - 1 < 0) := by omega
    unfold binarySearchMethod findRightmostStartLineAtOrBefore
    rw [← hLdef]
    simp only [if_neg hlen0, h0some, hlsome, if_neg hfs, if_neg hnn, htn,
      hdc, if_pos hins]

/-- C1 counterexample: on a start-sorted list with overlapping ranges the
locator returns `none` even though a declaration containing the query line
exists (here the fast-reject against the last declaration's `endLine` fires). -/
theorem c1_counterexample :
    binarySearchMethod [mdAt 1 10, mdAt 5 6] 8 = none ∧
    mdAt 1 10 ∈ [mdAt 1 10, mdAt 5 6] ∧
    (mdAt 1 10).startLine ≤ 8 ∧ 8 ≤ (mdAt 1 10).endLine := by
  refine ⟨by decide, ?_, by decide, by decide⟩
  exact List.mem_cons_self _ _

/-- C1 witness: the amended theorem applied to a concrete disjoint list. -/
theorem c1_cursor_locator_witness :
    binarySearchMethod [mdAt 3 5, mdAt 7 9] 8 = some (mdAt 7 9) :=
  (c1_cursor_locator_disjoint [mdAt 3 5, mdAt 7 9] 8
      (by rw [rangesDisjoint, List.chain'_cons]
          exact ⟨by decide, List.chain'_singleton _⟩)
      (by decide)).2 (mdAt 7 9) (List.mem_cons_of_mem _ (List.mem_cons_self _ _))
    (by decide) (by decide)

-- ----------------------------------------------------------------------
-- JsMap helper lemmas (shared by the cache and coalescing claims)
-- ----------------------------------------------------------------------

lemma mapHas_cons {α : Type} {e : Str × α} {t : JsMap α} {k : Str} :
    mapHas (e :: t) k = (decide (e.1 = k) || mapHas t k) := by
  cases e with
  | mk k' v =>
    by_cases h : k' = k <;> simp [mapHas, mapGet, h]

lemma mapSet_append_of_not_has {α : Type} {m : JsMap α} {k : Str} {v : α}
    (h : mapHas m k = false) : mapSet m k v = m ++ [(k, v)] := by
  induction m with
  | nil => simp [mapSet]
  | cons e t ih =>
    rw [mapHas_cons] at h
    simp only [Bool.or_eq_false_iff, decide_eq_false_iff_not] at h
    cases e with
    | mk k' v' =>
      simp only [mapSet, if_neg h.1, List.cons_append, List.cons.injEq, true_and]
      exact ih h.2

lemma mapSet_keys_of_has {α : Type} {m : JsMap α} {k : Str} {v : α}
    (h : mapHas m k = true) :
    (mapSet m k v).map Prod.fst = m.map Prod.fst := by
  induction m with
  | nil => simp [mapHas, mapGet] at h
  | cons e t ih =>
    cases e with
    | mk k' v' =>
      by_cases hk : k' = k
      · simp [mapSet, hk]
      · rw [mapHas_cons] at h
        simp only [decide_eq_true_eq] at h
        rcases Bool.or_eq_true_iff.mp h with h' | h'
        · exact absurd (of_decide_eq_true h') hk
        · simp only [mapSet, if_neg hk, List.map_cons, List.cons.injEq, true_and]
          exact ih h'

lemma mapSet_length_le {α : Type} (m : JsMap α) (k : Str) (v : α) :
    (mapSet m k v).length ≤ m.length + 1 := by
  induction m with
  | nil => simp [mapSet]
  | cons e t ih =>
    cases e with
    | mk k' v' =>
      by_cases hk : k' = k
      · simp [mapSet, hk]
      · simp only [mapSet, if_neg hk, List.length_cons]
        omega

lemma mapGet_mapDelete_self {α : Type} (m : JsMap α) (k : Str) :
    mapGet (mapDelete m k) k = none := by
  induction m with
  | nil => simp [mapDelete, mapGet]
  | cons e t ih =>
    cases e with
    | mk k' v' =>
      by_cases hk : k' = k
      · simpa [mapDelete, hk] using ih
      · simpa [mapDelete, mapGet, hk] using ih

lemma mapHas_mapDelete_self {α : Type} (m : JsMap α) (k : Str) :
    mapHas (mapDelete m k) k = false := by
  simp [mapHas, mapGet_mapDelete_self]

lemma mapDelete_of_not_mem {α : Type} {m : JsMap α} {k : Str}
    (h : ∀ e ∈ m, e.1 ≠ k) : mapDelete m k = m := by
  rw [mapDelete, List.filter_eq_self]
  intro e he
  simpa using h e he

lemma mapHas_of_tail {α : Type} {e : Str × α} {t : JsMap α} {k : Str}
    (h : mapHas (e :: t) k = false) : e.1 ≠ k ∧ mapHas t k = false := by
  rw [mapHas_cons] at h
  simp only [Bool.or_eq_false_iff, decide_eq_false_iff_not] at h
  exact h

lemma mapDelete_cons_self {α : Type} (e : Str × α) (t : JsMap α) :
    mapDelete (e :: t) e.1 = mapDelete t e.1 := by
  simp [mapDelete, List.filter_cons]

lemma mapDelete_length_le {α : Type} (m : JsMap α) (k : Str) :
    (mapDelete m k).length ≤ m.length :=
  List.length_filter_le _ _

lemma mapDelete_cons_self_of_nodup {α : Type} {e : Str × α} {t : JsMap α}
    (h : ((e :: t).map Prod.fst).Nodup) : mapDelete (e :: t) e.1 = t := by
  rw [mapDelete_cons_self]
  apply mapDelete_of_not_mem
  intro x hx hx1
  simp only [List.map_cons, List.nodup_cons] at h
  exact h.1 (hx1 ▸ List.mem_map_of_mem Prod.fst hx)

lemma setCachedSymbols_eq_of_cond_false {c : JsMap CachedSymbols} {k : Str}
    {v : Nat} {s : List DocSym}
    (h : (!(mapHas c k) && decide (MAX_CACHE_ENTRIES ≤ c.length)) = false) :
    setCachedSymbols c k v s = mapSet c k { version := v, symbols := s } := by
  unfold setCachedSymbols
  rw [h]
  rfl

lemma setCachedSymbols_evict {e : Str × CachedSymbols} {t : JsMap CachedSymbols}
    {k : Str} {v : Nat} {s : List DocSym}
    (h1 : mapHas (e :: t) k = false)
    (h2 : MAX_CACHE_ENTRIES ≤ (e :: t).length) :
    setCachedSymbols (e :: t) k v s =
      mapSet (mapDelete (e :: t) e.1) k { version := v, symbols := s } := by
  unfold setCachedSymbols
  have hc : (!(mapHas (e :: t) k) &&
      decide (MAX_CACHE_ENTRIES ≤ (e :: t).length)) = true := by
    rw [h1]
    simp only [Bool.not_false, Bool.true_and]
    exact decide_eq_true h2
  rw [hc]
  cases e
  rfl

/-- C7: the symbol cache is a strict LRU of fixed capacity
`MAX_CACHE_ENTRIES = 128`: (1) no insertion grows it beyond the capacity;
(2) inserting under a new key at capacity evicts exactly the
least-recently-used entry (the head of the recency order) and appends the
new entry as most recently used; (3) a cache hit re-inserts its entry at
the most-recently-used end; (4) inserting under an existing key replaces
that entry in place, evicting nothing. -/
theorem c7_lru_cache_spec :
    (∀ (c : JsMap CachedSymbols) (k : Str) (v : Nat) (s : List DocSym),
      c.length ≤ MAX_CACHE_ENTRIES →
      (setCachedSymbols c k v s).length ≤ MAX_CACHE_ENTRIES) ∧
    (∀ (c : JsMap CachedSymbols) (k : Str) (v : Nat) (s : List DocSym),
      mapHas c k = false → c.length = MAX_CACHE_ENTRIES →
      (c.map Prod.fst).Nodup →
      setCachedSymbols c k v s = c.tail ++ [(k, { version := v, symbols := s })]) ∧
    (∀ (c : JsMap CachedSymbols) (k : Str) (v : Nat) (e : CachedSymbols),
      mapGet c k = some e → e.version = v →
      getCachedSymbols c k v = (some e.symbols, mapDelete c k ++ [(k, e)])) ∧
    (∀ (c : JsMap CachedSymbols) (k : Str) (v : Nat) (s : List DocSym),
      mapHas c k = true →
      (setCachedSymbols c k v s).map Prod.fst = c.map Prod.fst ∧
      (setCachedSymbols c k v s).length = c.length) := by
  refine ⟨?_, ?_, ?_, ?_⟩
  · intro c k v s hlen
    by_cases hhas : mapHas c k = true
    · rw [setCachedSymbols_eq_of_cond_false (by rw [hhas]; rfl)]
      have hk := mapSet_keys_of_has (m := c) (k := k)
        (v := ({ version := v, symbols := s } : CachedSymbols)) hhas
      have hl : (mapSet c k ({ version := v, symbols := s } : CachedSymbols)).length
          = c.length := by
        simpa using congrArg List.length hk
      omega
    · have hhas' : mapHas c k = false := by
        cases h : mapHas c k
        · rfl
        · exact absurd h hhas
      by_cases hcap : MAX_CACHE_ENTRIES ≤ c.length
      · match c, hlen, hhas', hcap with
        | [], hlen, hhas', hcap => exact absurd hcap (by simp [MAX_CACHE_ENTRIES])
        | e :: t, hlen, hhas', hcap =>
          rw [setCachedSymbols_evict hhas' hcap]
          have h1 := mapSet_length_le (mapDelete (e :: t) e.1) k
            ({ version := v, symbols := s } : CachedSymbols)
          have h2 : (mapDelete (e :: t) e.1).length ≤ t.length := by
            rw [mapDelete_cons_self]
            exact mapDelete_length_le t e.1
          have h3 : (e :: t).length = t.length + 1 := rfl
          omega
      · rw [setCachedSymbols_eq_of_cond_false ?_]
        · have := mapSet_length_le c k ({ version := v, symbols := s } : CachedSymbols)
          omega
        · rw [hhas']
          simp only [Bool.not_false, Bool.true_and, decide_eq_false_iff_not]
          exact hcap
  · intro c k v s hhas hlen hnodup
    match c, hhas, hlen, hnodup with
    | [], hhas, hlen, hnodup => exact absurd hlen (by simp [MAX_CACHE_ENTRIES])
    | e :: t, hhas, hlen, hnodup =>
      rw [setCachedSymbols_evict hhas (by omega)]
      rw [mapDelete_cons_self_of_nodup hnodup]
      have hhast : mapHas t k = false := (mapHas_of_tail hhas).2
      rw [mapSet_append_of_not_has hhast]
      rfl
  · intro c k v e hget hver
    unfold getCachedSymbols
    simp only [hget]
    rw [if_neg (by simp [hver])]
    rw [mapSet_append_of_not_has (mapHas_mapDelete_self c k)]
  · intro c k v s hhas
    rw [setCachedSymbols_eq_of_cond_false (by rw [hhas]; rfl)]
    have hk := mapSet_keys_of_has (m := c) (k := k)
      (v := ({ version := v, symbols := s } : CachedSymbols)) hhas
    exact ⟨hk, by simpa using congrArg List.length hk⟩

/-- C7 witness: the LRU clauses applied at concrete caches. -/
theorem c7_lru_cache_witness :
    (setCachedSymbols lruFullCache (str "zz") 1 []).length ≤ MAX_CACHE_ENTRIES ∧
    setCachedSymbols lruFullCache (str "zz") 1 [] =
      lruFullCache.tail ++ [(str "zz", { version := 1, symbols := [] })] ∧
    getCachedSymbols [(str "a", { version := 3, symbols := [] })] (str "a") 3 =
      (some [], [(str "a", { version := 3, symbols := [] })]) ∧
    (setCachedSymbols [(str "a", { version := 1, symbols := [] })] (str "a") 2
        []).map Prod.fst =
      [(str "a", ({ version := 1, symbols := [] } : CachedSymbols))].map Prod.fst := by
  obtain ⟨h1, h2, h3, h4⟩ := c7_lru_cache_spec
  refine ⟨h1 lruFullCache (str "zz") 1 [] (by decide), ?_, ?_, ?_⟩
  · exact h2 lruFullCache (str "zz") 1 [] (by decide) (by decide) (by decide)
  · have := h3 [(str "a", { version := 3, symbols := [] })] (str "a") 3
      { version := 3, symbols := [] } rfl rfl
    simpa [mapDelete] using this
  · exact (h4 [(str "a", { version := 1, symbols := [] })] (str "a") 2 []
      (by decide)).1

/-- C3: for each `(document, version-or-untracked)` key at most one external
lookup is in flight: (1) a call that misses the cache while a lookup for
the same key is pending returns that pending result and leaves the state
unchanged — no second external call is issued; (2) settling a request
(success or failure) removes the in-flight marker for its key; (3) a fresh
external lookup is launched only when no marker for the key exists. -/
theorem c3_request_coalescing :
    (∀ (st : ResolverState) (cacheKey : Str) (version : Option Nat)
        (newId p : Nat),
      mapGet st.inFlight (requestKey cacheKey version) = some p →
      (∀ v, version = some v →
        (getCachedSymbols st.symbolCache cacheKey v).1 = none) →
      resolveSymbolsStep st cacheKey version newId =
        (ResolveOutcome.pendingHit p, st)) ∧
    (∀ (st : ResolverState) (cacheKey : Str) (version : Option Nat)
        (result : Except Unit (List DocSym)),
      mapGet (settleRequest st cacheKey version result).inFlight
        (requestKey cacheKey version) = none) ∧
    (∀ (st : ResolverState) (cacheKey : Str) (version : Option Nat)
        (newId : Nat),
      (resolveSymbolsStep st cacheKey version newId).1 =
        ResolveOutcome.launched newId →
      mapGet st.inFlight (requestKey cacheKey version) = none) := by
  refine ⟨?_, ?_, ?_⟩
  · intro st cacheKey version newId p hpend hmiss
    unfold resolveSymbolsStep
    cases version with
    | none => simp only [hpend]
    | some v =>
      have h1 := hmiss v rfl
      cases hgc : getCachedSymbols st.symbolCache cacheKey v with
      | mk fst snd =>
        rw [hgc] at h1
        simp only at h1
        subst h1
        simp only [hgc, hpend]
  · intro st cacheKey version result
    unfold settleRequest
    exact mapGet_mapDelete_self _ _
  · intro st cacheKey version newId h
    cases version with
    | none =>
      cases hg : mapGet st.inFlight (requestKey cacheKey none) with
      | none => rfl
      | some p =>
        exfalso
        have hstep : resolveSymbolsStep st cacheKey none newId =
            (ResolveOutcome.pendingHit p, st) := by
          unfold resolveSymbolsStep
          simp only [hg]
        rw [hstep] at h
        simp at h
    | some v =>
      cases hgc : getCachedSymbols st.symbolCache cacheKey v with
      | mk fst snd =>
        cases fst with
        | some syms =>
          exfalso
          have hstep : resolveSymbolsStep st cacheKey (some v) newId =
              (ResolveOutcome.cachedHit syms, { st with symbolCache := snd }) := by
            unfold resolveSymbolsStep
            simp only [hgc]
          rw [hstep] at h
          simp at h
        | none =>
          cases hg : mapGet st.inFlight (requestKey cacheKey (some v)) with
          | none => rfl
          | some p =>
            exfalso
            have hstep : resolveSymbolsStep st cacheKey (some v) newId =
                (ResolveOutcome.pendingHit p, st) := by
              unfold resolveSymbolsStep
              simp only [hgc, hg]
            rw [hstep] at h
            simp at h

/-- C3 witness: the coalescing clauses applied at a concrete state. -/
theorem c3_request_coalescing_witness :
    resolveSymbolsStep pendingState (str "file:a.java") (some 1) 9 =
      (ResolveOutcome.pendingHit 7, pendingState) ∧
    mapGet (settleRequest pendingState (str "file:a.java") (some 1)
        (Except.ok [])).inFlight (requestKey (str "file:a.java") (some 1)) =
      none := by
  obtain ⟨h1, h2, h3⟩ := c3_request_coalescing
  refine ⟨?_, h2 pendingState (str "file:a.java") (some 1) (Except.ok [])⟩
  exact h1 pendingState (str "file:a.java") (some 1) 9 7 rfl
    (fun v hv => by cases hv; rfl)

-- ----------------------------------------------------------------------
-- C4, C5: signature round-trip and void return suppression
-- ----------------------------------------------------------------------

/-- C4: for the signature
`public Map<String, List<Integer>> merge(@NotNull final String a, int[] b)`
the signature-derived parameter-type table maps `a` to `String` and `b` to
`int[]` (and contains nothing else), and the signature-derived return type
is exactly `Map<String, List<Integer>>`. -/
theorem c4_signature_round_trip :
    parseSignatureParams
        (str "public Map<String, List<Integer>> merge(@NotNull final String a, int[] b)") =
      [(str "a", str "String"), (str "b", str "int[]")] ∧
    mapGet (parseSignatureParams
        (str "public Map<String, List<Integer>> merge(@NotNull final String a, int[] b)"))
      (str "a") = some (str "String") ∧
    mapGet (parseSignatureParams
        (str "public Map<String, List<Integer>> merge(@NotNull final String a, int[] b)"))
      (str "b") = some (str "int[]") ∧
    parseReturnType
        (str "public Map<String, List<Integer>> merge(@NotNull final String a, int[] b)") =
      str "Map<String, List<Integer>>" :=
  ⟨by decide, by decide, by decide, by decide⟩

lemma applyBlock_returns_of_void {pt : JsMap Str} {rt : Str}
    (hrt : rt = str "void") (acc : TagTable) (b : ParsedTagBlock) :
    (applyBlock pt rt acc b).returns = acc.returns := by
  rcases b with ⟨tag, content⟩
  cases tag
  case tagParam =>
    simp only [applyBlock]
    cases parseParamTag (trimC content) pt <;> rfl
  case tagReturn => simp [applyBlock, hrt]
  case tagReturns => simp [applyBlock, hrt]
  case tagThrows =>
    simp only [applyBlock]
    cases parseThrowsTag (trimC content) <;> rfl
  case tagException =>
    simp only [applyBlock]
    cases parseThrowsTag (trimC content) <;> rfl
  case tagSince => rfl
  case tagAuthor => rfl
  case tagDeprecated => rfl
  case tagSee =>
    simp only [applyBlock]
    split <;> rfl
  case tagDoc => rfl
  case tagExample => rfl

lemma foldl_applyBlock_returns_of_void {pt : JsMap Str} {rt : Str}
    (hrt : rt = str "void") :
    ∀ (blocks : List ParsedTagBlock) (acc : TagTable),
      (blocks.foldl (applyBlock pt rt) acc).returns = acc.returns := by
  intro blocks
  induction blocks with
  | nil => intro acc; rfl
  | cons b bs ih =>
    intro acc
    rw [List.foldl_cons, ih]
    exact applyBlock_returns_of_void hrt acc b

/-- C5: whenever the signature's return type resolves to the `"void"`
sentinel — in particular for constructor signatures such as
`public Foo()` — the parsed Tag Table carries no return tag, no matter how
many `@return`/`@returns` tags the raw text contains. -/
theorem c5_void_suppresses_return (rawTags signature : Str)
    (h : parseReturnType signature = str "void") :
    (parseTagTable rawTags signature).returns = none := by
  unfold parseTagTable
  by_cases h1 : (trimC rawTags).isEmpty
  · rw [if_pos h1]
    rfl
  · rw [if_neg h1]
    by_cases h2 : (tokenizeTagBlocks rawTags).isEmpty
    · simp only [h2, if_pos]
      rfl
    · simp only [h2, if_neg, Bool.false_eq_true, if_false]
      rw [h]
      exact foldl_applyBlock_returns_of_void rfl _ _

/-- C5 witness: an `@return` tag against the constructor signature
`public Foo()` is suppressed. -/
theorem c5_void_suppresses_return_witness :
    (parseTagTable (str "@return the result") (str "public Foo()")).returns =
      none :=
  c5_void_suppresses_return (str "@return the result") (str "public Foo()")
    (by decide)

-- ----------------------------------------------------------------------
-- C2: the mid-prose tag marker
-- ----------------------------------------------------------------------

/-- C2 counterexample: for the comment content
`"Computes @return value. \n@param x the input"` the parser does produce
exactly one parameter tag, but the description is `"Computes"`: the
`@return` inside the running prose is taken as the start of the tag
section by `parseJavadoc`'s `search(/@\w+/)`, so the description does not
contain the literal text `"Computes @return value."`. -/
theorem c2_counterexample :
    (parseJavadoc (str "Computes @return value. \n@param x the input")
        (str "public int compute(int x)")).2.params.length = 1 ∧
    containsSub (str "Computes @return value.")
      (parseJavadoc (str "Computes @return value. \n@param x the input")
        (str "public int compute(int x)")).1 = false :=
  ⟨by decide, by decide⟩

/-- C2 (amended): `parseJavadoc` splits the comment at the first `@word`
occurrence anywhere — even in mid-prose — so this input yields the
description `"Computes"`, one parameter tag `x : int` and a return tag
`"value."`.  Inside the tag section the line-based tokenizer does keep an
`@word` that is not at the start of a (trimmed) line inside the open
block instead of starting a new one. -/
theorem c2_parse_javadoc_amended :
    parseJavadoc (str "Computes @return value. \n@param x the input")
        (str "public int compute(int x)") =
      (str "Computes",
       { params := [{ name := str "x", type := str "int",
                      description := str "the input" }],
         returns := some { type := str "int", description := str "value." },
         throws := [], since := none, author := none, deprecated := none,
         see := [], doc := none, exampleTag := none }) ∧
    tokenizeTagBlocks (str "@param x sees @return here") =
      [{ tag := SupportedTag.tagParam, content := str "x sees @return here" }] :=
  ⟨by decide, by decide⟩

-- ----------------------------------------------------------------------
-- C6: class-comment de-duplication
-- ----------------------------------------------------------------------

lemma extractMemberComment_of_dup {text classComment : Str} {sl : Nat}
    (h1 : classComment.isEmpty = false)
    (h3 : extractComment text sl = classComment) :
    extractMemberComment text sl classComment = [] := by
  unfold extractMemberComment
  rw [h3, h1]
  simp

/-- C6: a non-container declaration (here: a field) whose upward-recovered
comment text is character-for-character identical to the container's
non-empty comment loses the comment: the parsed field document has
`hasComment = false` and the empty description. -/
theorem c6_comment_dedup (text : Str) (fs : FlatSym) (classComment : Str)
    (sl : Nat) (f : FieldDoc)
    (h1 : classComment.isEmpty = false)
    (h2 : symbolStartLine fs.symbol = Except.ok sl)
    (h3 : extractComment text sl = classComment)
    (h4 : (parseField text fs classComment).1 = some f) :
    f.hasComment = false ∧ f.description = [] := by
  have hbody : parseFieldBody text fs classComment = Except.ok f := by
    revert h4
    unfold parseField
    cases hb : parseFieldBody text fs classComment with
    | ok g => intro h4; simp only [Option.some.injEq] at h4; rw [h4]
    | error e => intro h4; simp at h4
  unfold parseFieldBody at hbody
  rw [h2] at hbody
  simp only at hbody
  rw [extractMemberComment_of_dup h1 h3] at hbody
  simp only [List.isEmpty_nil, Bool.not_true, Bool.false_eq_true, if_false] at hbody
  cases hbody
  exact ⟨rfl, rfl⟩

/-- C6 witness: the de-duplication theorem applied at the concrete input. -/
theorem c6_comment_dedup_witness :
    dupFieldDoc.hasComment = false ∧ dupFieldDoc.description = [] :=
  c6_comment_dedup dupText dupFieldSym (str "/** C */") 1 dupFieldDoc
    (by decide) rfl (by decide) (by decide)

-- ----------------------------------------------------------------------
-- C8: per-declaration failure isolation
-- ----------------------------------------------------------------------

/-- C8: if extracting one method's details raises the modelled exception,
the `parse` pipeline drops exactly that declaration — the method list
equals the one computed without it — and logs the declaration's name; the
failure never escapes `parseMethod` (which is total and returns `null`). -/
theorem c8_parse_failure_isolation (text classComment : Str)
    (pre post : List FlatSym) (fs : FlatSym) (e : Str)
    (herr : parseMethodBody text fs classComment = Except.error e) :
    methodsOf text classComment (pre ++ fs :: post) =
      methodsOf text classComment (pre ++ post) ∧
    (isMethodSymbol fs.symbol = true →
      (str "[JavaDocParser] Failed to parse method: " ++ fs.symbol.name) ∈
        methodLogsOf text classComment (pre ++ fs :: post)) := by
  have hpm : parseMethod text fs classComment =
      (none, [str "[JavaDocParser] Failed to parse method: " ++ fs.symbol.name]) := by
    unfold parseMethod
    rw [herr]
  constructor
  · unfold methodsOf
    by_cases hm : isMethodSymbol fs.symbol
    · simp only [List.filter_append, List.filter_cons, hm, if_pos,
        List.filterMap_append, List.filterMap_cons, hpm]
    · simp only [List.filter_append, List.filter_cons, hm,
        Bool.false_eq_true, if_false]
  · intro hm
    unfold methodLogsOf
    rw [List.filter_append, List.filter_cons]
    simp only [hm, if_pos]
    rw [List.flatMap_append]
    refine List.mem_append_right _ ?_
    rw [List.flatMap_cons, hpm]
    exact List.mem_append_left _ (List.mem_singleton_self _)

/-- C8 witness: the isolation theorem applied at a concrete pipeline. -/
theorem c8_parse_failure_isolation_witness :
    methodsOf [] [] [brokenMethodSym] = methodsOf [] [] [] ∧
    (str "[JavaDocParser] Failed to parse method: " ++
        brokenMethodSym.symbol.name) ∈ methodLogsOf [] [] [brokenMethodSym] := by
  have h := c8_parse_failure_isolation [] [] [] [] brokenMethodSym
    (str "TypeError") rfl
  exact ⟨h.1, h.2 (by decide)⟩

-- ----------------------------------------------------------------------
-- C10: characterization of the symbol-tree flattener
-- ----------------------------------------------------------------------

lemma emitsFrom_nil {parentName : Str} {fs : FlatSym} :
    ¬ EmitsFrom [] parentName fs := by
  intro h
  cases h with
  | leaf hmem _ _ => cases hmem
  | nest hmem _ _ => cases hmem

lemma emitsFrom_cons_of_tail {s : DocSym} {rest : List DocSym}
    {parentName : Str} {fs : FlatSym} (h : EmitsFrom rest parentName fs) :
    EmitsFrom (s :: rest) parentName fs := by
  cases h with
  | leaf hmem hncl hkind => exact .leaf (List.mem_cons_of_mem _ hmem) hncl hkind
  | nest hmem hcl hrec => exact .nest (List.mem_cons_of_mem _ hmem) hcl hrec

lemma sizeOf_children_lt (s : DocSym) : sizeOf s.children < sizeOf s := by
  cases s with
  | mk n k d sr r c => simp [DocSym.children]

lemma c10_flatten_aux :
    ∀ (n : Nat) (syms : List DocSym) (parentName : Str) (fs : FlatSym),
      sizeOf syms ≤ n →
      (fs ∈ flattenSymbols syms parentName ↔ EmitsFrom syms parentName fs) := by
  intro n
  induction n with
  | zero =>
    intro syms parentName fs hsz
    cases syms with
    | nil => simp at hsz
    | cons s rest => simp at hsz
  | succ n ih =>
    intro syms parentName fs hsz
    cases syms with
    | nil =>
      rw [flattenSymbols]
      simp only [List.not_mem_nil, false_iff]
      exact emitsFrom_nil
    | cons s rest =>
      have hszs : sizeOf s + sizeOf rest + 1 ≤ n + 1 := by
        simp at hsz
        omega
      have hrest : sizeOf rest ≤ n := by
        have := sizeOf_children_lt s
        omega
      have hchild : sizeOf s.children ≤ n := by
        have := sizeOf_children_lt s
        omega
      rw [flattenSymbols]
      rw [List.mem_append]
      constructor
      · rintro (hmem | hmem)
        · by_cases hcl : isClassLikeSymbol s
          · rw [if_pos hcl] at hmem
            by_cases hlen : 0 < s.children.length
            · rw [if_pos hlen] at hmem
              exact .nest (List.mem_cons_self _ _) hcl
                ((ih s.children _ fs hchild).mp hmem)
            · rw [if_neg hlen] at hmem
              cases hmem
          · rw [if_neg hcl] at hmem
            by_cases hkind : isMethodSymbol s || isFieldSymbol s ||
                isEnumMemberSymbol s
            · rw [if_pos hkind] at hmem
              rcases List.mem_singleton.mp hmem with rfl
              exact .leaf (List.mem_cons_self _ _)
                (Bool.eq_false_iff.mpr hcl) hkind
            · rw [if_neg hkind] at hmem
              cases hmem
        · exact emitsFrom_cons_of_tail ((ih rest parentName fs hrest).mp hmem)
      · intro h
        cases h with
        | leaf hmem hncl hkind =>
          rename_i s'
          rcases List.mem_cons.mp hmem with rfl | hmem'
          · left
            rw [if_neg (by rw [hncl]; exact Bool.false_ne_true), if_pos hkind]
            exact List.mem_singleton_self _
          · right
            exact (ih rest parentName _ hrest).mpr (.leaf hmem' hncl hkind)
        | nest hmem hcl hrec =>
          rename_i s'
          rcases List.mem_cons.mp hmem with heq | hmem'
          · rw [heq] at hcl hrec
            left
            rw [if_pos hcl]
            have hne : 0 < s.children.length := by
              cases hc : s.children with
              | nil =>
                exfalso
                rw [hc] at hrec
                exact emitsFrom_nil hrec
              | cons a b => simp [hc]
            rw [if_pos hne]
            exact (ih s.children _ fs hchild).mpr hrec
          · right
            exact (ih rest parentName fs hrest).mpr (.nest hmem' hcl hrec)

/-- C10: membership in the flattener's output characterizes exactly the
leaf declarations reachable through chains of class-like containers: a
record is emitted if and only if its symbol is a method/constructor/
function, field/constant, or enum-member symbol reached by recursing
through class-like nodes only, and it carries the dot-joined container
path (`"Unknown"` for an empty path).  Symbols of any other kind are
dropped with their whole subtree, and the children of emitted leaves are
never visited. -/
theorem c10_flatten_characterization (syms : List DocSym) (parentName : Str)
    (fs : FlatSym) :
    fs ∈ flattenSymbols syms parentName ↔ EmitsFrom syms parentName fs :=
  c10_flatten_aux (sizeOf syms) syms parentName fs (le_refl _)

-- ----------------------------------------------------------------------
-- C9: string-level groundwork
-- ----------------------------------------------------------------------

lemma splitNl_ne_nil (s : Str) : splitNl s ≠ [] := by
  cases s with
  | nil => simp [splitNl]
  | cons c rest =>
    rw [splitNl]
    cases h : splitNl rest with
    | nil => simp
    | cons a b =>
      by_cases hc : c = '\n' <;> simp [hc]

lemma joinNl_splitNl (s : Str) : joinNl (splitNl s) = s := by
  induction s with
  | nil => rfl
  | cons c rest ih =>
    cases h : splitNl rest with
    | nil => exact absurd h (splitNl_ne_nil rest)
    | cons a b =>
      rw [h] at ih
      rw [splitNl, h]
      by_cases hc : c = '\n'
      · subst hc
        simp only [if_pos rfl]
        show '\n' :: joinNl (a :: b) = '\n' :: rest
        rw [ih]
      · simp only [if_neg hc]
        cases b with
        | nil =>
          show c :: a = c :: rest
          have : a = rest := by simpa [joinNl] using ih
          rw [this]
        | cons x y =>
          show c :: (a ++ '\n' :: joinNl (x :: y)) = c :: rest
          rw [show a ++ '\n' :: joinNl (x :: y) = joinNl (a :: x :: y) from rfl,
            ih]

lemma nl_not_mem_splitNl (s : Str) : ∀ l ∈ splitNl s, ('\n' : Char) ∉ l := by
  induction s with
  | nil => intro l hl; simp [splitNl] at hl; simp [hl]
  | cons c rest ih =>
    intro l hl
    cases h : splitNl rest with
    | nil => exact absurd h (splitNl_ne_nil rest)
    | cons a b =>
      simp only [splitNl, h] at hl
      by_cases hc : c = '\n'
      · rw [if_pos hc] at hl
        rcases List.mem_cons.mp hl with rfl | hl'
        · simp
        · exact ih l (h ▸ hl')
      · rw [if_neg hc] at hl
        rcases List.mem_cons.mp hl with rfl | hl'
        · intro hmem
          rcases List.mem_cons.mp hmem with rfl | hmem'
          · exact hc rfl
          · exact ih a (h ▸ List.mem_cons_self a b) hmem'
        · exact ih l (h ▸ List.mem_cons_of_mem a hl')

lemma splitNl_joinNl (ls : List Str) (h : ls ≠ [])
    (hnl : ∀ l ∈ ls, ('\n' : Char) ∉ l) : splitNl (joinNl ls) = ls := by
  induction ls with
  | nil => exact absurd rfl h
  | cons l rest ih =>
    cases rest with
    | nil =>
      have hl := hnl l (List.mem_cons_self _ _)
      clear h ih hnl
      simp only [joinNl]
      induction l with
      | nil => rfl
      | cons c t iht =>
        rw [splitNl]
        have hc : c ≠ '\n' := by
          intro hc
          exact hl (hc ▸ List.mem_cons_self _ _)
        rw [iht (fun hmem => hl (List.mem_cons_of_mem c hmem))]
        simp [hc]
    | cons m rest' =>
      have hjoin : joinNl (l :: m :: rest') = l ++ '\n' :: joinNl (m :: rest') :=
        rfl
      rw [hjoin]
      have hl := hnl l (List.mem_cons_self _ _)
      have hrec : splitNl (joinNl (m :: rest')) = m :: rest' :=
        ih (by simp) (fun x hx => hnl x (List.mem_cons_of_mem l hx))
      clear h ih hnl hjoin
      induction l with
      | nil =>
        simp only [List.nil_append, splitNl]
        rw [hrec]
        simp
      | cons c t iht =>
        have hc : c ≠ '\n' := by
          intro hc
          exact hl (hc ▸ List.mem_cons_self _ _)
        rw [List.cons_append, splitNl]
        rw [iht (fun hmem => hl (List.mem_cons_of_mem c hmem))]
        simp [hc]

lemma trimEndC_isPre (x : Str) : trimEndC x <+: x := by
  rw [trimEndC]
  have h : x.reverse.dropWhile isJsWs <:+ x.reverse :=
    List.dropWhile_suffix isJsWs
  have h2 := List.reverse_prefix.mpr h
  rwa [List.reverse_reverse] at h2

lemma head?_eq_of_isPre {p x : Str} (h : p <+: x) (hne : p ≠ []) :
    x.head? = p.head? := by
  rcases h with ⟨t, rfl⟩
  cases p with
  | nil => exact absurd rfl hne
  | cons a b => rfl

lemma head?_dropWhile_not_ws (l : Str) :
    ∀ c, (l.dropWhile isJsWs).head? = some c → isJsWs c = false := by
  induction l with
  | nil => intro c h; simp at h
  | cons a t ih =>
    intro c h
    rw [List.dropWhile_cons] at h
    by_cases ha : isJsWs a
    · rw [if_pos ha] at h
      exact ih c h
    · rw [if_neg ha] at h
      simp only [List.head?_cons, Option.some.injEq] at h
      subst h
      exact Bool.eq_false_iff.mpr ha

lemma dropWhile_eq_self_of_head {l : Str}
    (h : ∀ c, l.head? = some c → isJsWs c = false) :
    l.dropWhile isJsWs = l := by
  cases l with
  | nil => rfl
  | cons a t =>
    rw [List.dropWhile_cons, if_neg]
    rw [h a rfl]
    simp

lemma trimEndC_trimEndC (x : Str) : trimEndC (trimEndC x) = trimEndC x := by
  rw [trimEndC, trimEndC]
  rw [List.reverse_reverse, List.dropWhile_idempotent]

lemma dropWhile_trimEndC (l : Str) :
    (trimEndC (l.dropWhile isJsWs)).dropWhile isJsWs =
      trimEndC (l.dropWhile isJsWs) := by
  apply dropWhile_eq_self_of_head
  intro c hc
  cases hp : trimEndC (l.dropWhile isJsWs) with
  | nil => rw [hp] at hc; simp at hc
  | cons a b =>
    have h1 := head?_eq_of_isPre (trimEndC_isPre (l.dropWhile isJsWs))
      (by rw [hp]; simp)
    rw [hp] at hc
    have h2 : (l.dropWhile isJsWs).head? = some c := by
      rw [h1, hp]
      exact hc
    exact head?_dropWhile_not_ws l c h2

lemma trimC_idem (l : Str) : trimC (trimC l) = trimC l := by
  rw [trimC, trimC, dropWhile_trimEndC, trimEndC_trimEndC]

lemma all_ws_of_trimC_eq_nil {l : Str} (h : trimC l = []) :
    ∀ c ∈ l, isJsWs c = true := by
  intro c hc
  rw [trimC, trimEndC] at h
  have h2 : (l.dropWhile isJsWs).reverse.dropWhile isJsWs = [] := by
    have := congrArg List.reverse h
    simpa using this
  rw [List.dropWhile_eq_nil_iff] at h2
  rcases (List.mem_append.mp
    ((List.takeWhile_append_dropWhile (p := isJsWs) (l := l)) ▸ hc)) with
    hmem | hmem
  · exact List.mem_takeWhile_imp hmem
  · exact h2 c (List.mem_reverse.mpr hmem)

lemma trimC_dropWhile_ws (l : Str) :
    trimC (l.dropWhile isJsWs) = trimC l := by
  rw [trimC, trimC, List.dropWhile_idempotent]

lemma trimC_eq_self_of_parts {l : Str}
    (hh : ∀ c, l.head? = some c → isJsWs c = false)
    (hl : ∀ c, l.getLast? = some c → isJsWs c = false) :
    trimC l = l := by
  rw [trimC, dropWhile_eq_self_of_head hh, trimEndC]
  rw [dropWhile_eq_self_of_head, List.reverse_reverse]
  intro c hc
  apply hl
  rwa [List.head?_reverse] at hc

lemma ws_not_word {c : Char} (h : isJsWs c = true) : isWordChar c = false := by
  simp only [isJsWs, Bool.or_eq_true, decide_eq_true_eq, Bool.and_eq_true] at h
  simp only [isWordChar, Bool.or_eq_false_iff, Bool.and_eq_false_iff,
    decide_eq_false_iff_not, not_le]
  omega

lemma exists_ws_decomp (l : Str) :
    ∃ pre suf, l = pre ++ trimC l ++ suf ∧ (∀ c ∈ pre, isJsWs c = true) ∧
      (∀ c ∈ suf, isJsWs c = true) := by
  refine ⟨l.takeWhile isJsWs,
    ((l.dropWhile isJsWs).reverse.takeWhile isJsWs).reverse, ?_, ?_, ?_⟩
  · rw [trimC, trimEndC]
    conv_lhs => rw [← List.takeWhile_append_dropWhile (p := isJsWs) (l := l)]
    rw [List.append_assoc]
    congr 1
    set m := l.dropWhile isJsWs with hm
    have hsplit : m = ((m.reverse.takeWhile isJsWs) ++
        (m.reverse.dropWhile isJsWs)).reverse := by
      rw [List.takeWhile_append_dropWhile, List.reverse_reverse]
    conv_lhs => rw [hsplit]
    rw [List.reverse_append]
  · exact fun c hc => List.mem_takeWhile_imp hc
  · intro c hc
    rw [List.mem_reverse] at hc
    exact List.mem_takeWhile_imp hc

lemma dropWhile_ws_append_of_all {a y : Str} (h : ∀ c ∈ a, isJsWs c = true) :
    (a ++ y).dropWhile isJsWs = y.dropWhile isJsWs := by
  induction a with
  | nil => rfl
  | cons c t ih =>
    rw [List.cons_append, List.dropWhile_cons,
      if_pos (h c (List.mem_cons_self _ _))]
    exact ih (fun x hx => h x (List.mem_cons_of_mem c hx))

lemma dropWhile_ws_append_of_ne {p s : Str} (h : p.dropWhile isJsWs ≠ []) :
    (p ++ s).dropWhile isJsWs = p.dropWhile isJsWs ++ s := by
  induction p with
  | nil => exact absurd rfl h
  | cons c t ih =>
    simp only [List.cons_append, List.dropWhile_cons]
    rw [List.dropWhile_cons] at h
    by_cases hc : isJsWs c = true
    · rw [if_pos hc, if_pos hc]
      rw [if_pos hc] at h
      exact ih h
    · rw [if_neg hc, if_neg hc]
      rw [List.cons_append]

lemma ciPrefixAt_length_le {w r : Str} (h : ciPrefixAt w r = true) :
    w.length ≤ r.length := by
  rw [ciPrefixAt] at h
  have heq := eq_of_beq h
  have := congrArg List.length heq
  simp at this
  omega

lemma ciPrefixAt_append {w r s : Str} (h : ciPrefixAt w r = true) :
    ciPrefixAt w (r ++ s) = true := by
  have hle := ciPrefixAt_length_le h
  rw [ciPrefixAt] at h ⊢
  rw [List.take_append_of_le_length hle]
  exact h

lemma boundaryOk_append {d s : Str} (hws : ∀ c ∈ s, isJsWs c = true)
    (h : boundaryOk d = true) : boundaryOk (d ++ s) = true := by
  cases d with
  | nil =>
    cases s with
    | nil => rfl
    | cons c t =>
      simp only [List.nil_append, boundaryOk]
      rw [ws_not_word (hws c (List.mem_cons_self _ _))]
      rfl
  | cons c t => exact h

lemma checkTag_isSome_append {t : SupportedTag} {r s : Str}
    (hws : ∀ c ∈ s, isJsWs c = true)
    (h : (checkTag t r).isSome = true) : (checkTag t (r ++ s)).isSome = true := by
  rw [checkTag] at h ⊢
  by_cases hc : (ciPrefixAt (tagChars t) r &&
      boundaryOk (r.drop (tagChars t).length)) = true
  · rw [Bool.and_eq_true] at hc
    have hle := ciPrefixAt_length_le hc.1
    have h1 := ciPrefixAt_append (s := s) hc.1
    have h2 : (r ++ s).drop (tagChars t).length =
        r.drop (tagChars t).length ++ s := List.drop_append_of_le_length hle
    rw [if_pos]
    · rfl
    · rw [h1, h2, boundaryOk_append hws hc.2]
      rfl
  · rw [if_neg hc] at h
    simp at h

lemma findTagIn_isSome_append {ts : List SupportedTag} {r s : Str}
    (hws : ∀ c ∈ s, isJsWs c = true)
    (h : (findTagIn ts r).isSome = true) :
    (findTagIn ts (r ++ s)).isSome = true := by
  induction ts with
  | nil => simp [findTagIn] at h
  | cons t ts ih =>
    rw [findTagIn] at h ⊢
    cases hx : checkTag t (r ++ s) with
    | some res => simp
    | none =>
      cases hy : checkTag t r with
      | some res =>
        exfalso
        have := checkTag_isSome_append hws (by rw [hy]; rfl)
        rw [hx] at this
        simp at this
      | none =>
        rw [hy] at h
        simp only at h
        exact ih h

-- ----------------------------------------------------------------------
-- Idempotence of the tag tokenizer under reconstruction
-- ----------------------------------------------------------------------

lemma tokStep_tag (st : TokState) (t : SupportedTag) (c0 : Str) :
    tokStep st (('@' :: tagChars t) ++ ' ' :: c0) =
      ⟨some t, [trimC (c0.dropWhile isJsWs)], (flushTok st).blocks⟩ := by
  cases t <;> rfl

lemma matchTagCore_eq_dispatch (r1 : Str) :
    matchTagCore r1 = atDispatch (starStripped r1) := rfl

lemma atDispatch_of_ne {c : Char} {t : Str} (h : c ≠ '@') :
    atDispatch (c :: t) = none := by
  unfold atDispatch
  split
  · rename_i heq
    injection heq with h1 h2
    exact absurd h1 h
  · rfl

lemma starStripped_of_ne {c : Char} {t : Str} (h : c ≠ '*') :
    starStripped (c :: t) = c :: t := by
  unfold starStripped
  split
  · rename_i heq
    injection heq with h1 h2
    exact absurd h1 h
  · rfl

lemma normalize_of_head_ne {l : Str} (hd : l.dropWhile isJsWs = l)
    (hs : l.head? ≠ some '*') : normalizeJavadocLine l = l := by
  unfold normalizeJavadocLine
  rw [hd]
  cases l with
  | nil => rfl
  | cons c t =>
    split
    · rename_i heq
      injection heq with h1 h2
      exact absurd (show (c :: t : Str).head? = some '*' by
        rw [List.head?_cons, h1]) hs
    · rfl

lemma normalize_suffix (l : Str) : normalizeJavadocLine l <:+ l := by
  unfold normalizeJavadocLine
  have hsuf : l.dropWhile isJsWs <:+ l := List.dropWhile_suffix isJsWs
  split
  · rename_i r heq
    have h1 : r <:+ l := (List.suffix_cons '*' r).trans (heq ▸ hsuf)
    cases r with
    | nil => exact List.nil_suffix
    | cons c r' =>
      show (if isJsWs c then r' else c :: r') <:+ l
      by_cases hc : isJsWs c
      · rw [if_pos hc]
        exact (List.suffix_cons c r').trans h1
      · rw [if_neg hc]
        exact h1
  · exact List.suffix_refl l


lemma starStripped_suffix (r : Str) : starStripped r <:+ r := by
  cases r with
  | nil => exact List.suffix_refl _
  | cons c t =>
    by_cases hc : c = '*'
    · subst hc
      rw [show starStripped ('*' :: t) = t.dropWhile isJsWs from rfl]
      exact (List.dropWhile_suffix isJsWs).trans (List.suffix_cons '*' t)
    · rw [starStripped_of_ne hc]

lemma checkTag_suffix {t : SupportedTag} {r : Str} {tg : SupportedTag} {c : Str}
    (h : checkTag t r = some (tg, c)) : c <:+ r := by
  unfold checkTag at h
  split at h
  · injection h with h1
    injection h1 with h2 h3
    rw [← h3]
    exact (List.dropWhile_suffix isJsWs).trans (List.drop_suffix _ r)
  · exact absurd h (by simp)

lemma findTagIn_suffix {ts : List SupportedTag} {r : Str} {tg : SupportedTag}
    {c : Str} (h : findTagIn ts r = some (tg, c)) : c <:+ r := by
  induction ts with
  | nil => exact absurd h (by simp [findTagIn])
  | cons t ts ih =>
    rw [findTagIn] at h
    cases hx : checkTag t r with
    | some res =>
      rw [hx] at h
      injection h with h1
      exact checkTag_suffix (h1 ▸ hx)
    | none =>
      rw [hx] at h
      exact ih h

lemma matchTagCore_suffix {r : Str} {tg : SupportedTag} {c : Str}
    (h : matchTagCore r = some (tg, c)) : c <:+ r := by
  rw [matchTagCore_eq_dispatch] at h
  have hss : starStripped r <:+ r := starStripped_suffix r
  cases hsp : starStripped r with
  | nil => rw [hsp] at h; exact absurd h (by simp [atDispatch])
  | cons d rest =>
    rw [hsp] at h
    by_cases hd : d = '@'
    · subst hd
      rw [show atDispatch ('@' :: rest) = tagAfterAt rest from rfl] at h
      rw [tagAfterAt] at h
      exact (findTagIn_suffix h).trans
        (((List.suffix_cons '@' rest).trans (hsp ▸ hss)))
    · rw [atDispatch_of_ne hd] at h
      exact absurd h (by simp)

lemma matchTagLine_suffix {l : Str} {tg : SupportedTag} {c : Str}
    (h : matchTagLine l = some (tg, c)) : c <:+ l := by
  rw [matchTagLine] at h
  exact (matchTagCore_suffix h).trans (List.dropWhile_suffix isJsWs)

lemma matchTagCore_isSome_append {r s : Str} (hws : ∀ c ∈ s, isJsWs c = true)
    (h : (matchTagCore r).isSome = true) :
    (matchTagCore (r ++ s)).isSome = true := by
  rw [matchTagCore_eq_dispatch] at h ⊢
  cases r with
  | nil =>
    rw [show starStripped [] = [] from rfl] at h
    exact absurd h (by simp [atDispatch])
  | cons c t =>
    by_cases hc : c = '*'
    · subst hc
      rw [show starStripped ('*' :: t) = t.dropWhile isJsWs from rfl] at h
      cases hd : t.dropWhile isJsWs with
      | nil => rw [hd] at h; exact absurd h (by simp [atDispatch])
      | cons d rest =>
        rw [hd] at h
        by_cases hda : d = '@'
        · subst hda
          rw [show ('*' :: t ++ s) = '*' :: (t ++ s) from rfl,
            show starStripped ('*' :: (t ++ s)) = (t ++ s).dropWhile isJsWs
              from rfl]
          rw [dropWhile_ws_append_of_ne (by rw [hd]; simp), hd]
          rw [show ('@' :: rest ++ s) = '@' :: (rest ++ s) from rfl,
            show atDispatch ('@' :: (rest ++ s)) = tagAfterAt (rest ++ s)
              from rfl]
          rw [show atDispatch ('@' :: rest) = tagAfterAt rest from rfl] at h
          rw [tagAfterAt] at h ⊢
          exact findTagIn_isSome_append hws h
        · rw [atDispatch_of_ne hda] at h
          exact absurd h (by simp)
    · rw [starStripped_of_ne hc] at h
      by_cases hca : c = '@'
      · subst hca
        rw [show atDispatch ('@' :: t) = tagAfterAt t from rfl] at h
        rw [show ('@' :: t ++ s) = '@' :: (t ++ s) from rfl,
          starStripped_of_ne (by decide),
          show atDispatch ('@' :: (t ++ s)) = tagAfterAt (t ++ s) from rfl]
        rw [tagAfterAt] at h ⊢
        exact findTagIn_isSome_append hws h
      · rw [atDispatch_of_ne hca] at h
        exact absurd h (by simp)

lemma parts_of_trimC_eq_self {l : Str} (h : trimC l = l) :
    l.dropWhile isJsWs = l ∧ l.reverse.dropWhile isJsWs = l.reverse := by
  have hlen1 : (l.dropWhile isJsWs).length ≤ l.length :=
    ((List.dropWhile_suffix isJsWs).sublist).length_le
  have hlen2 : (trimC l).length ≤ (l.dropWhile isJsWs).length := by
    rw [trimC, trimEndC]
    have := ((List.dropWhile_suffix (l := (l.dropWhile isJsWs).reverse)
      isJsWs).sublist).length_le
    simpa using this
  rw [h] at hlen2
  have hdrop : l.dropWhile isJsWs = l :=
    (List.dropWhile_suffix isJsWs).eq_of_length_le hlen2
  refine ⟨hdrop, ?_⟩
  have hend : trimEndC l = l := by
    rw [trimC, hdrop] at h
    exact h
  rw [trimEndC] at hend
  have := congrArg List.reverse hend
  rwa [List.reverse_reverse] at this

lemma head_not_ws_of_trimmed {l : Str} (h : trimC l = l) :
    ∀ c, l.head? = some c → isJsWs c = false := by
  intro c hc
  have hp := (parts_of_trimC_eq_self h).1
  exact head?_dropWhile_not_ws l c (by rw [hp]; exact hc)

lemma last_not_ws_of_trimmed {l : Str} (h : trimC l = l) :
    ∀ c, l.getLast? = some c → isJsWs c = false := by
  intro c hc
  have hp := (parts_of_trimC_eq_self h).2
  refine head?_dropWhile_not_ws l.reverse c ?_
  rw [hp, List.head?_reverse]
  exact hc

lemma trimEndC_decomp (x : Str) :
    ∃ suf, x = trimEndC x ++ suf ∧ ∀ c ∈ suf, isJsWs c = true := by
  refine ⟨(x.reverse.takeWhile isJsWs).reverse, ?_, ?_⟩
  · conv_lhs => rw [← List.reverse_reverse x,
      ← List.takeWhile_append_dropWhile (p := isJsWs) (l := x.reverse)]
    rw [List.reverse_append, trimEndC]
  · intro c hc
    rw [List.mem_reverse] at hc
    exact List.mem_takeWhile_imp hc

lemma mem_trimC {c : Char} {l : Str} (h : c ∈ trimC l) : c ∈ l := by
  rw [trimC] at h
  have h1 : c ∈ l.dropWhile isJsWs :=
    ((trimEndC_isPre (l.dropWhile isJsWs)).sublist).subset h
  exact ((List.dropWhile_suffix isJsWs).sublist).subset h1

lemma matchTagLine_none_trimC {l : Str} (h : matchTagLine l = none) :
    matchTagLine (trimC l) = none := by
  cases hmt : matchTagLine (trimC l) with
  | none => rfl
  | some p =>
    exfalso
    rw [matchTagLine] at hmt
    have hd : (trimC l).dropWhile isJsWs = trimC l := by
      rw [trimC]
      exact dropWhile_trimEndC l
    rw [hd] at hmt
    rcases trimEndC_decomp (l.dropWhile isJsWs) with ⟨suf, hdec, hws⟩
    have h2 : (matchTagCore (trimC l ++ suf)).isSome = true :=
      matchTagCore_isSome_append hws (by rw [hmt]; rfl)
    rw [show trimC l = trimEndC (l.dropWhile isJsWs) from rfl, ← hdec] at h2
    rw [matchTagLine] at h
    rw [h] at h2
    exact absurd h2 (by simp)

lemma tokStep_cont {st : TokState} {l : Str} {t : SupportedTag}
    (ht : st.activeTag = some t) (h1 : trimC l = l) (h2 : l.head? ≠ some '*')
    (h3 : matchTagLine l = none) :
    tokStep st l = ⟨st.activeTag, st.buffer ++ [l], st.blocks⟩ := by
  have hn : normalizeJavadocLine l = l :=
    normalize_of_head_ne (parts_of_trimC_eq_self h1).1 h2
  simp only [tokStep, hn, h3, ht, h1]

lemma tokStep_inactive {st : TokState} {l : Str}
    (ht : st.activeTag = none)
    (hm : matchTagLine (normalizeJavadocLine l) = none) :
    tokStep st l = st := by
  simp only [tokStep, hm, ht]

lemma foldl_tokStep_cont {t : SupportedTag} (ls : List Str) :
    ∀ st : TokState, st.activeTag = some t →
    (∀ l ∈ ls, trimC l = l ∧ l.head? ≠ some '*' ∧ matchTagLine l = none) →
    List.foldl tokStep st ls = ⟨st.activeTag, st.buffer ++ ls, st.blocks⟩ := by
  induction ls with
  | nil => intro st ht _; simp
  | cons l ls ih =>
    intro st ht hl
    rw [List.foldl_cons,
      tokStep_cont ht (hl l (List.mem_cons_self _ _)).1
        (hl l (List.mem_cons_self _ _)).2.1 (hl l (List.mem_cons_self _ _)).2.2]
    rw [ih ⟨st.activeTag, st.buffer ++ [l], st.blocks⟩ (by rw [ht])
      (fun x hx => hl x (List.mem_cons_of_mem l hx))]
    simp

lemma fold_reconLines (b : ParsedTagBlock) (st : TokState)
    (hwf : BlockWf b) (hstar : noStarCont b) :
    List.foldl tokStep st (reconLines b) =
      ⟨some b.tag, splitNl b.content, (flushTok st).blocks⟩ := by
  obtain ⟨hct, hlines, htail⟩ := hwf
  cases hsp : splitNl b.content with
  | nil => exact absurd hsp (splitNl_ne_nil _)
  | cons c0 rest =>
    have hrl : reconLines b = (('@' :: tagChars b.tag) ++ ' ' :: c0) :: rest := by
      rw [reconLines, hsp]
    rw [hrl, List.foldl_cons, tokStep_tag]
    have hc0 : trimC c0 = c0 :=
      (hlines c0 (by rw [hsp]; exact List.mem_cons_self _ _)).1
    have hbuf : trimC (c0.dropWhile isJsWs) = c0 := by
      rw [trimC_dropWhile_ws, hc0]
    rw [hbuf]
    have hcont : ∀ l ∈ rest, trimC l = l ∧ l.head? ≠ some '*' ∧
        matchTagLine l = none := by
      intro l hl
      have hmem : l ∈ splitNl b.content := by
        rw [hsp]; exact List.mem_cons_of_mem c0 hl
      have hmemt : l ∈ (splitNl b.content).tail := by
        rw [hsp]; exact hl
      exact ⟨(hlines l hmem).1, hstar l hmemt, htail l hmemt⟩
    rw [foldl_tokStep_cont (t := b.tag) rest _ rfl hcont]
    rfl

lemma tok_fold_recon (bs : List ParsedTagBlock) :
    ∀ st : TokState, (∀ b ∈ bs, BlockWf b ∧ noStarCont b) →
    (flushTok (List.foldl tokStep st (bs.flatMap reconLines))).blocks =
      (flushTok st).blocks ++ bs := by
  induction bs with
  | nil => intro st _; simp
  | cons b bs ih =>
    intro st hwf
    rw [List.flatMap_cons, List.foldl_append]
    rw [fold_reconLines b st (hwf b (List.mem_cons_self _ _)).1
      (hwf b (List.mem_cons_self _ _)).2]
    rw [ih _ (fun x hx => hwf x (List.mem_cons_of_mem b hx))]
    have hfl : (flushTok ⟨some b.tag, splitNl b.content, (flushTok st).blocks⟩).blocks
        = (flushTok st).blocks ++ [b] := by
      show (flushTok st).blocks ++ [⟨b.tag, trimC (joinNl (splitNl b.content))⟩]
        = (flushTok st).blocks ++ [b]
      rw [joinNl_splitNl, (hwf b (List.mem_cons_self _ _)).1.1]
    rw [hfl, List.append_assoc]
    rfl

lemma joinNl_append_ne {ls : List Str} (x : Str) (h : ls ≠ []) :
    joinNl (ls ++ [x]) = joinNl ls ++ '\n' :: x := by
  induction ls with
  | nil => exact absurd rfl h
  | cons l ls ih =>
    cases ls with
    | nil => rfl
    | cons m ms =>
      show l ++ '\n' :: joinNl (m :: ms ++ [x]) =
        (l ++ '\n' :: joinNl (m :: ms)) ++ '\n' :: x
      rw [ih (by simp), List.append_assoc]
      rfl

lemma trimEndC_append_ws {a w : Str} (h : ∀ c ∈ w, isJsWs c = true) :
    trimEndC (a ++ w) = trimEndC a := by
  rw [trimEndC, trimEndC, List.reverse_append,
    dropWhile_ws_append_of_all (fun c hc => h c (List.mem_reverse.mp hc))]

lemma head_not_ws_of_trimmed_ne {l : Str} (h : trimC l = l) (hne : l ≠ []) :
    ∃ c t, l = c :: t ∧ isJsWs c = false := by
  cases l with
  | nil => exact absurd rfl hne
  | cons c t => exact ⟨c, t, rfl, head_not_ws_of_trimmed h c rfl⟩

lemma dropWhile_ws_joinNl {buf : List Str} (h : ∀ l ∈ buf, trimC l = l) :
    (joinNl buf).dropWhile isJsWs = joinNl (buf.dropWhile List.isEmpty) := by
  induction buf with
  | nil => rfl
  | cons l ls ih =>
    by_cases hl : l = []
    · subst hl
      cases ls with
      | nil => rfl
      | cons m ms =>
        show (('\n' : Char) :: joinNl (m :: ms)).dropWhile isJsWs =
          joinNl (([] :: m :: ms : List Str).dropWhile List.isEmpty)
        rw [List.dropWhile_cons, if_pos (by decide),
          ih (fun x hx => h x (List.mem_cons_of_mem _ hx))]
        rfl
    · obtain ⟨c, t, hct, hcw⟩ :=
        head_not_ws_of_trimmed_ne (h l (List.mem_cons_self _ _)) hl
      have hemp : (l.isEmpty : Bool) = false := by
        rw [hct]; rfl
      have hdl : (l :: ls).dropWhile List.isEmpty = l :: ls := by
        rw [List.dropWhile_cons, hemp]
        simp
      rw [hdl]
      cases ls with
      | nil =>
        show l.dropWhile isJsWs = joinNl [l]
        rw [hct, List.dropWhile_cons, hcw]
        rfl
      | cons m ms =>
        show (l ++ '\n' :: joinNl (m :: ms)).dropWhile isJsWs =
          joinNl (l :: m :: ms)
        rw [hct, List.cons_append, List.dropWhile_cons, hcw]
        rfl

lemma trimEndC_joinNl {buf : List Str} (h : ∀ l ∈ buf, trimC l = l) :
    trimEndC (joinNl buf) =
      joinNl ((buf.reverse.dropWhile List.isEmpty).reverse) := by
  induction buf using List.reverseRecOn with
  | nil => rfl
  | append_singleton ls x ih =>
    by_cases hx : x = []
    · subst hx
      cases ls with
      | nil => rfl
      | cons m ms =>
        rw [joinNl_append_ne [] (by simp)]
        have h1 : trimEndC (joinNl (m :: ms) ++ ['\n']) =
            trimEndC (joinNl (m :: ms)) :=
          trimEndC_append_ws (by intro c hc; simp at hc; rw [hc]; decide)
        rw [show joinNl (m :: ms) ++ '\n' :: ([] : Str) =
          joinNl (m :: ms) ++ ['\n'] from rfl, h1,
          ih (fun l hl => h l (List.mem_append_left _ hl))]
        rw [List.reverse_append]
        rfl
    · have hxtr : trimC x = x := h x (List.mem_append_right _ (by simp))
      have hrev : ((ls ++ [x]).reverse.dropWhile List.isEmpty).reverse
          = ls ++ [x] := by
        rw [List.reverse_append]
        show ((x :: ls.reverse).dropWhile List.isEmpty).reverse = ls ++ [x]
        have hemp : (x.isEmpty : Bool) = false := by
          cases x with
          | nil => exact absurd rfl hx
          | cons c t => rfl
        rw [List.dropWhile_cons, hemp]
        simp
      rw [hrev]
      cases ls with
      | nil =>
        show trimEndC x = x
        rw [trimEndC, (parts_of_trimC_eq_self hxtr).2, List.reverse_reverse]
      | cons m ms =>
        rw [joinNl_append_ne x (by simp)]
        rw [trimEndC, List.reverse_append]
        have hxr : x.reverse.dropWhile isJsWs = x.reverse :=
          (parts_of_trimC_eq_self hxtr).2
        obtain ⟨c, t, hct, hcw⟩ : ∃ c t, x.reverse = c :: t ∧ isJsWs c = false := by
          cases hxrv : x.reverse with
          | nil => exact absurd (by simpa using congrArg List.reverse hxrv) hx
          | cons c t =>
            refine ⟨c, t, rfl, ?_⟩
            exact head?_dropWhile_not_ws x.reverse c (by rw [hxr, hxrv]; rfl)
        rw [show ('\n' :: x : Str).reverse = x.reverse ++ ['\n'] from by simp,
          List.append_assoc, hct, List.cons_append, List.dropWhile_cons, hcw]
        have hxeq : x = t.reverse ++ [c] := by
          rw [← List.reverse_reverse x, hct, List.reverse_cons]
        rw [hxeq]
        simp

lemma trimC_joinNl {buf : List Str} (h : ∀ l ∈ buf, trimC l = l) :
    trimC (joinNl buf) =
      joinNl ((((buf.dropWhile List.isEmpty).reverse.dropWhile
        List.isEmpty)).reverse) := by
  rw [trimC, dropWhile_ws_joinNl h,
    trimEndC_joinNl (fun l hl => h l (((List.dropWhile_suffix _).sublist).subset hl))]

lemma tail_dropWhile_subset {α : Type} (p : α → Bool) (xs : List α) :
    ∀ l ∈ (xs.dropWhile p).tail, l ∈ xs.tail := by
  induction xs with
  | nil => intro l hl; exact hl
  | cons a t ih =>
    intro l hl
    rw [List.dropWhile_cons] at hl
    by_cases ha : p a = true
    · rw [if_pos ha] at hl
      exact List.mem_of_mem_tail (ih l hl)
    · rw [if_neg ha] at hl
      exact hl

lemma tail_isPrefix_subset {α : Type} {m' m : List α} (h : m' <+: m) :
    ∀ l ∈ m'.tail, l ∈ m.tail := by
  intro l hl
  cases m' with
  | nil => exact absurd hl (by simp)
  | cons a t =>
    rcases h with ⟨r, hr⟩
    rw [← hr]
    show l ∈ (a :: (t ++ r)).tail
    exact List.mem_append_left r hl

lemma rev_dropWhile_rev_isPre {α : Type} (p : α → Bool) (m : List α) :
    (m.reverse.dropWhile p).reverse <+: m := by
  have h : m.reverse.dropWhile p <:+ m.reverse := List.dropWhile_suffix p
  have h2 := List.reverse_prefix.mpr h
  rwa [List.reverse_reverse] at h2

lemma newBlockWf {buf : List Str} (t : SupportedTag)
    (hbuf : ∀ l ∈ buf, trimC l = l ∧ ('\n' : Char) ∉ l)
    (htail : ∀ l ∈ buf.tail, matchTagLine l = none) :
    BlockWf ⟨t, trimC (joinNl buf)⟩ := by
  have hKL := trimC_joinNl (fun l hl => (hbuf l hl).1)
  set buf1 := buf.dropWhile List.isEmpty with hbuf1
  set buf2 := (buf1.reverse.dropWhile List.isEmpty).reverse with hbuf2
  have hsub1 : ∀ l ∈ buf1, l ∈ buf :=
    fun l hl => ((List.dropWhile_suffix _).sublist).subset hl
  have hsub2 : ∀ l ∈ buf2, l ∈ buf := by
    intro l hl
    exact hsub1 l (((rev_dropWhile_rev_isPre _ buf1).sublist).subset hl)
  have htls : ∀ l ∈ buf2.tail, l ∈ buf.tail := by
    intro l hl
    exact tail_dropWhile_subset _ buf
      l (tail_isPrefix_subset (rev_dropWhile_rev_isPre _ buf1) l hl)
  cases hb2 : buf2 with
  | nil =>
    rw [hb2] at hKL
    refine ⟨?_, ?_, ?_⟩
    · rw [hKL]; rfl
    · intro l hl
      rw [hKL] at hl
      show trimC l = l ∧ ('\n' : Char) ∉ l
      have hl' : l ∈ [([] : Str)] := hl
      rw [List.mem_singleton.mp hl']
      exact ⟨rfl, List.not_mem_nil _⟩
    · intro l hl
      rw [hKL] at hl
      exact absurd hl (by simp [splitNl])
  | cons l0 rest =>
    have hb2ne : buf2 ≠ [] := by rw [hb2]; simp
    have hnl : ∀ l ∈ buf2, ('\n' : Char) ∉ l :=
      fun l hl => (hbuf l (hsub2 l hl)).2
    have hsplit : splitNl (trimC (joinNl buf)) = buf2 := by
      rw [hKL, splitNl_joinNl buf2 hb2ne hnl]
    refine ⟨trimC_idem _, ?_, ?_⟩
    · intro l hl
      rw [hsplit] at hl
      exact hbuf l (hsub2 l hl)
    · intro l hl
      rw [hsplit] at hl
      exact htail l (htls l hl)

lemma flushTok_wf {st : TokState}
    (hbuf : ∀ l ∈ st.buffer, trimC l = l ∧ ('\n' : Char) ∉ l)
    (htail : ∀ l ∈ st.buffer.tail, matchTagLine l = none)
    (hblk : ∀ b ∈ st.blocks, BlockWf b) :
    ∀ b ∈ (flushTok st).blocks, BlockWf b := by
  rcases st with ⟨tag?, buf, blks⟩
  cases tag? with
  | none => exact hblk
  | some t =>
    intro b hb
    have hb' : b ∈ blks ++ [(⟨t, trimC (joinNl buf)⟩ : ParsedTagBlock)] := hb
    rcases List.mem_append.mp hb' with h | h
    · exact hblk b h
    · rw [List.mem_singleton.mp h]
      exact newBlockWf t hbuf htail

lemma tokStep_inv {st : TokState} {l : Str} (hl : ('\n' : Char) ∉ l)
    (hbuf : ∀ x ∈ st.buffer, trimC x = x ∧ ('\n' : Char) ∉ x)
    (htail : ∀ x ∈ st.buffer.tail, matchTagLine x = none)
    (hblk : ∀ b ∈ st.blocks, BlockWf b) :
    (∀ x ∈ (tokStep st l).buffer, trimC x = x ∧ ('\n' : Char) ∉ x) ∧
    (∀ x ∈ (tokStep st l).buffer.tail, matchTagLine x = none) ∧
    (∀ b ∈ (tokStep st l).blocks, BlockWf b) := by
  have hnsub : ∀ c, c ∈ normalizeJavadocLine l → c ∈ l :=
    fun c hc => ((normalize_suffix l).sublist).subset hc
  cases hm : matchTagLine (normalizeJavadocLine l) with
  | some p =>
    rcases p with ⟨t, content⟩
    have hstep : tokStep st l =
        ⟨some t, [trimC content], (flushTok st).blocks⟩ := by
      simp only [tokStep, hm]
    rw [hstep]
    refine ⟨?_, ?_, ?_⟩
    · intro x hx
      have hx' : x = trimC content := List.mem_singleton.mp hx
      subst hx'
      refine ⟨trimC_idem _, ?_⟩
      intro hnl
      exact hl (hnsub _ (((matchTagLine_suffix hm).sublist).subset
        (mem_trimC hnl)))
    · intro x hx
      exact absurd hx (List.not_mem_nil _)
    · exact flushTok_wf hbuf htail hblk
  | none =>
    cases ht : st.activeTag with
    | none =>
      rw [tokStep_inactive ht hm]
      exact ⟨hbuf, htail, hblk⟩
    | some t =>
      have hstep : tokStep st l =
          ⟨st.activeTag, st.buffer ++ [trimC (normalizeJavadocLine l)],
            st.blocks⟩ := by
        simp only [tokStep, hm, ht]
      rw [hstep]
      refine ⟨?_, ?_, ?_⟩
      · intro x hx
        rcases List.mem_append.mp hx with h | h
        · exact hbuf x h
        · rw [List.mem_singleton.mp h]
          refine ⟨trimC_idem _, ?_⟩
          intro hnl
          exact hl (hnsub _ (mem_trimC hnl))
      · intro x hx
        have hx2 : x ∈ st.buffer.tail ++ [trimC (normalizeJavadocLine l)] := by
          cases hb : st.buffer with
          | nil =>
            rw [hb] at hx
            simp at hx
          | cons b0 bs =>
            rw [hb] at hx
            exact hx
        rcases List.mem_append.mp hx2 with h | h
        · exact htail x h
        · rw [List.mem_singleton.mp h]
          exact matchTagLine_none_trimC hm
      · exact hblk

lemma foldl_tokStep_inv (lines : List Str) :
    ∀ st : TokState, (∀ l ∈ lines, ('\n' : Char) ∉ l) →
    (∀ x ∈ st.buffer, trimC x = x ∧ ('\n' : Char) ∉ x) →
    (∀ x ∈ st.buffer.tail, matchTagLine x = none) →
    (∀ b ∈ st.blocks, BlockWf b) →
    (∀ x ∈ (List.foldl tokStep st lines).buffer,
      trimC x = x ∧ ('\n' : Char) ∉ x) ∧
    (∀ x ∈ (List.foldl tokStep st lines).buffer.tail, matchTagLine x = none) ∧
    (∀ b ∈ (List.foldl tokStep st lines).blocks, BlockWf b) := by
  induction lines with
  | nil => intro st _ h1 h2 h3; exact ⟨h1, h2, h3⟩
  | cons l ls ih =>
    intro st hnl h1 h2 h3
    rw [List.foldl_cons]
    have hstep := tokStep_inv (hnl l (List.mem_cons_self _ _)) h1 h2 h3
    exact ih (tokStep st l) (fun x hx => hnl x (List.mem_cons_of_mem l hx))
      hstep.1 hstep.2.1 hstep.2.2

lemma mem_splitNl_subset (s : Str) :
    ∀ l ∈ splitNl s, ∀ c ∈ l, c ∈ s := by
  induction s with
  | nil =>
    intro l hl c hc
    have : l = [] := List.mem_singleton.mp hl
    rw [this] at hc
    exact absurd hc (List.not_mem_nil _)
  | cons a t ih =>
    intro l hl c hc
    cases hsp : splitNl t with
    | nil => exact absurd hsp (splitNl_ne_nil t)
    | cons h0 t' =>
      have hred : splitNl (a :: t) =
          if a = '\n' then [] :: h0 :: t' else (a :: h0) :: t' := by
        rw [splitNl, hsp]
      rw [hred] at hl
      by_cases ha : a = '\n'
      · rw [if_pos ha] at hl
        rcases hl with _ | hl'
        · exact absurd hc (List.not_mem_nil _)
        · rename_i hl2
          exact List.mem_cons_of_mem a (ih l (hsp ▸ hl2) c hc)
      · rw [if_neg ha] at hl
        rcases hl with _ | hl'
        · rcases hc with _ | hc'
          · exact List.mem_cons_self _ _
          · rename_i hc2
            exact List.mem_cons_of_mem a
              (ih h0 (hsp ▸ List.mem_cons_self _ _) c hc2)
        · rename_i hl2
          exact List.mem_cons_of_mem a
            (ih l (hsp ▸ List.mem_cons_of_mem h0 hl2) c hc)

lemma mem_splitLines_subset (s : Str) :
    ∀ l ∈ splitLines s, ∀ c ∈ l, c ∈ s := by
  intro l hl c hc
  rw [splitLines] at hl
  rcases List.mem_map.mp hl with ⟨l0, hl0, hfl⟩
  have hcl0 : c ∈ l0 := by
    by_cases hcr : l0.getLast? = some '\r'
    · rw [← hfl] at hc
      rw [if_pos hcr] at hc
      exact (List.dropLast_sublist l0).subset hc
    · rw [← hfl] at hc
      rw [if_neg hcr] at hc
      exact hc
  exact mem_splitNl_subset s l0 hl0 c hcl0

lemma nl_not_mem_splitLines (s : Str) :
    ∀ l ∈ splitLines s, ('\n' : Char) ∉ l := by
  intro l hl hnl
  rw [splitLines] at hl
  rcases List.mem_map.mp hl with ⟨l0, hl0, hfl⟩
  have hnl0 : ('\n' : Char) ∈ l0 := by
    by_cases hcr : l0.getLast? = some '\r'
    · rw [← hfl, if_pos hcr] at hnl
      exact (List.dropLast_sublist l0).subset hnl
    · rw [← hfl, if_neg hcr] at hnl
      exact hnl
  exact nl_not_mem_splitNl s l0 hl0 hnl0

lemma tokenize_wf (raw : Str) :
    ∀ b ∈ tokenizeTagBlocks raw, BlockWf b := by
  rw [tokenizeTagBlocks, tokenizeLines]
  have hinv := foldl_tokStep_inv (splitLines raw) ⟨none, [], []⟩
    (nl_not_mem_splitLines raw)
    (by intro x hx; exact absurd hx (List.not_mem_nil _))
    (by intro x hx; exact absurd hx (List.not_mem_nil _))
    (by intro b hb; exact absurd hb (List.not_mem_nil _))
  exact flushTok_wf hinv.1 hinv.2.1 hinv.2.2

lemma nl_not_mem_tagChars (t : SupportedTag) : ('\n' : Char) ∉ tagChars t := by
  cases t <;> decide

lemma reconLines_ne_nil (b : ParsedTagBlock) : reconLines b ≠ [] := by
  rw [reconLines]
  cases hsp : splitNl b.content with
  | nil => simp
  | cons c0 rest => simp

lemma recon_line_props {b : ParsedTagBlock} (hwf : BlockWf b) :
    ∀ l ∈ reconLines b, ('\n' : Char) ∉ l ∧ l.getLast? ≠ some '\r' := by
  obtain ⟨hct, hlines, _⟩ := hwf
  intro l hl
  cases hsp : splitNl b.content with
  | nil => exact absurd hsp (splitNl_ne_nil _)
  | cons c0 rest =>
    have hrl : reconLines b = (('@' :: tagChars b.tag) ++ ' ' :: c0) :: rest := by
      rw [reconLines, hsp]
    rw [hrl] at hl
    have hc0mem : c0 ∈ splitNl b.content := by
      rw [hsp]; exact List.mem_cons_self _ _
    rcases List.mem_cons.mp hl with hl1 | hl2
    · subst hl1
      constructor
      · intro hnl
        rcases List.mem_append.mp hnl with h | h
        · rcases List.mem_cons.mp h with h2 | h2
          · exact absurd h2 (by decide)
          · exact nl_not_mem_tagChars b.tag h2
        · rcases List.mem_cons.mp h with h2 | h2
          · exact absurd h2 (by decide)
          · exact (hlines c0 hc0mem).2 h2
      · rw [List.getLast?_append_of_ne_nil _ (by simp)]
        cases hc0 : c0 with
        | nil => simp
        | cons d e =>
          rw [List.getLast?_cons_cons]
          intro hlast
          have := last_not_ws_of_trimmed (hlines c0 hc0mem).1 '\r'
            (by rw [hc0]; exact hlast)
          exact absurd this (by decide)
    · have hmem : l ∈ splitNl b.content := by
        rw [hsp]; exact List.mem_cons_of_mem c0 hl2
      refine ⟨(hlines l hmem).2, ?_⟩
      intro hlast
      have := last_not_ws_of_trimmed (hlines l hmem).1 '\r' hlast
      exact absurd this (by decide)

lemma splitLines_joinNl {ls : List Str} (h : ls ≠ [])
    (hprops : ∀ l ∈ ls, ('\n' : Char) ∉ l ∧ l.getLast? ≠ some '\r') :
    splitLines (joinNl ls) = ls := by
  rw [splitLines, splitNl_joinNl ls h (fun l hl => (hprops l hl).1)]
  have : ∀ l ∈ ls,
      (if l.getLast? = some '\r' then l.dropLast else l) = id l := by
    intro l hl
    rw [if_neg (hprops l hl).2]
    rfl
  rw [List.map_congr_left this, List.map_id]

lemma recon_tokenize_eq {bs : List ParsedTagBlock}
    (hwf : ∀ b ∈ bs, BlockWf b) (hstar : ∀ b ∈ bs, noStarCont b) :
    tokenizeTagBlocks (reconstructTagText bs) = bs := by
  cases bs with
  | nil => rfl
  | cons b0 rest =>
    rw [tokenizeTagBlocks, reconstructTagText]
    have hne : (b0 :: rest).flatMap reconLines ≠ [] := by
      rw [List.flatMap_cons]
      intro hemp
      exact reconLines_ne_nil b0 (List.append_eq_nil.mp hemp).1
    have hprops : ∀ l ∈ (b0 :: rest).flatMap reconLines,
        ('\n' : Char) ∉ l ∧ l.getLast? ≠ some '\r' := by
      intro l hl
      rcases List.mem_flatMap.mp hl with ⟨b, hb, hlb⟩
      exact recon_line_props (hwf b hb) l hlb
    rw [splitLines_joinNl hne hprops, tokenizeLines]
    rw [tok_fold_recon (b0 :: rest) ⟨none, [], []⟩
      (fun b hb => ⟨hwf b hb, hstar b hb⟩)]
    rfl

lemma tokStep_ws_inactive {st : TokState} {l : Str}
    (ht : st.activeTag = none) (hws : ∀ c ∈ l, isJsWs c = true) :
    tokStep st l = st := by
  refine tokStep_inactive ht ?_
  rw [matchTagLine]
  have hsub : ∀ c ∈ normalizeJavadocLine l, isJsWs c = true :=
    fun c hc => hws c (((normalize_suffix l).sublist).subset hc)
  rw [List.dropWhile_eq_nil_iff.mpr (fun c hc => hsub c hc)]
  rfl

lemma tokenize_all_ws {raw : Str} (h : ∀ c ∈ raw, isJsWs c = true) :
    tokenizeTagBlocks raw = [] := by
  rw [tokenizeTagBlocks, tokenizeLines]
  have hfold : ∀ lines, (∀ l ∈ lines, ∀ c ∈ l, isJsWs c = true) →
      List.foldl tokStep ⟨none, [], []⟩ lines = ⟨none, [], []⟩ := by
    intro lines
    induction lines with
    | nil => intro _; rfl
    | cons l ls ih =>
      intro hl
      rw [List.foldl_cons, tokStep_ws_inactive rfl (hl l (List.mem_cons_self _ _))]
      exact ih (fun x hx => hl x (List.mem_cons_of_mem l hx))
  rw [hfold (splitLines raw)
    (fun l hl c hc => h c (mem_splitLines_subset raw l hl c hc))]
  rfl

lemma mem_joinNl {c : Char} {l : Str} {ls : List Str}
    (hc : c ∈ l) (hl : l ∈ ls) : c ∈ joinNl ls := by
  induction ls with
  | nil => exact absurd hl (List.not_mem_nil _)
  | cons m ms ih =>
    rcases List.mem_cons.mp hl with h1 | h2
    · subst h1
      cases ms with
      | nil => exact hc
      | cons n ns =>
        show c ∈ l ++ '\n' :: joinNl (n :: ns)
        exact List.mem_append_left _ hc
    · cases ms with
      | nil => exact absurd h2 (List.not_mem_nil _)
      | cons n ns =>
        show c ∈ m ++ '\n' :: joinNl (n :: ns)
        exact List.mem_append_right _ (List.mem_cons_of_mem '\n' (ih h2))

/-- C9: for every raw tag text whose tokenized blocks have no continuation
content line beginning with an asterisk, rejoining the parsed tag blocks
into tag lines (one `@tag` line seeded with the block's first content line,
followed by the block's remaining content lines) and parsing the
reconstructed text with the same signature produces the same tag table as
parsing the original text.  (Without the asterisk restriction the claim
fails: `normalizeJavadocLine` strips one leading `*` decoration from a
continuation line on re-parse; see the counterexample.) -/
theorem c9_tokenize_idempotent_no_star (rawTags signature : Str)
    (hstar : ∀ b ∈ tokenizeTagBlocks rawTags, noStarCont b) :
    parseTagTable (reconstructTagText (tokenizeTagBlocks rawTags)) signature =
      parseTagTable rawTags signature := by
  have hwf := tokenize_wf rawTags
  cases hemp : (trimC rawTags).isEmpty with
  | true =>
    have hallws : ∀ c ∈ rawTags, isJsWs c = true :=
      all_ws_of_trimC_eq_nil (List.isEmpty_iff.mp hemp)
    rw [tokenize_all_ws hallws,
      show reconstructTagText [] = [] from rfl,
      parseTagTable, parseTagTable, if_pos hemp,
      if_pos (show (trimC ([] : Str)).isEmpty = true from rfl)]
  | false =>
    cases hbs : tokenizeTagBlocks rawTags with
    | nil =>
      rw [show reconstructTagText [] = [] from rfl,
        parseTagTable, parseTagTable,
        if_pos (show (trimC ([] : Str)).isEmpty = true from rfl),
        if_neg (by rw [hemp]; simp), hbs]
      rfl
    | cons b0 rest =>
      have hrec : tokenizeTagBlocks
          (reconstructTagText (b0 :: rest)) = b0 :: rest :=
        recon_tokenize_eq (fun b hb => hwf b (hbs ▸ hb))
          (fun b hb => hstar b (hbs ▸ hb))
      have hne : ¬ (trimC (reconstructTagText (b0 :: rest))).isEmpty = true := by
        intro hemp2
        have hallws := all_ws_of_trimC_eq_nil (List.isEmpty_iff.mp hemp2)
        have hat : ('@' : Char) ∈ reconstructTagText (b0 :: rest) := by
          rw [reconstructTagText]
          cases hsp : splitNl b0.content with
          | nil => exact absurd hsp (splitNl_ne_nil _)
          | cons c0 r0 =>
            have hlmem : (('@' :: tagChars b0.tag) ++ ' ' :: c0) ∈
                (b0 :: rest).flatMap reconLines := by
              rw [List.flatMap_cons]
              refine List.mem_append_left _ ?_
              rw [reconLines, hsp]
              exact List.mem_cons_self _ _
            exact mem_joinNl (List.mem_append_left _
              (List.mem_cons_self '@' (tagChars b0.tag))) hlmem
        exact absurd (hallws '@' hat) (by decide)
      have hne2 : (trimC (reconstructTagText (b0 :: rest))).isEmpty = false :=
        Bool.eq_false_iff.mpr hne
      rw [parseTagTable, parseTagTable, hrec, hbs, hne2, hemp]

/-- C9 counterexample to the unrestricted claim: a continuation line
`** x` is stored in the block content as `* x` (one `*` stripped); on the
reconstructed text the re-parse strips another `*`, so the tag tables of
`"@doc\na\n** x"` and its reconstruction differ. -/
theorem c9_counterexample :
    parseTagTable (reconstructTagText
        (tokenizeTagBlocks (str "@doc\na\n** x"))) (str "") ≠
      parseTagTable (str "@doc\na\n** x") (str "") :=
  fun h => absurd (congrArg TagTable.doc h) (by decide)

/-- C9 witness: the amended idempotence applied to a concrete two-line
`@param` block whose continuation line does not begin with `*`. -/
theorem c9_tokenize_idempotent_witness :
    parseTagTable (reconstructTagText
        (tokenizeTagBlocks (str "@param x first\nsecond")))
        (str "void m(int x)") =
      parseTagTable (str "@param x first\nsecond") (str "void m(int x)") :=
  c9_tokenize_idempotent_no_star _ _ (by
    intro b hb
    have hcalc : tokenizeTagBlocks (str "@param x first\nsecond") =
        [⟨SupportedTag.tagParam, str "x first\nsecond"⟩] := by decide
    rw [hcalc] at hb
    rw [List.mem_singleton.mp hb, noStarCont]
    decide)
